import Mathlib

/-!
Verification of the hydra-cpp configuration engine.

This file gives a shallow embedding of the core of the repository
(`ConfigNode` tree model, merge, path grammar, override assignment,
YAML scalar interpretation and scalar emission, defaults composition,
and the interpolation resolver) and proves the testable properties of
the specification against it.

Modelling conventions:
* `std::map<std::string, ConfigNode>` is modelled as an association
  list with unique keys.  `map_find` models `map.find`, `map_emplace`
  models `map.emplace` (which inserts only when the key is absent),
  `map_set` models assignment through an iterator
  (`it->second = value`, which overwrites in place).  The sorted
  iteration order of `std::map` is abstracted to the list order; no
  theorem below depends on the relative order of distinct keys.
* `int64_t` is modelled as `Int`; the `std::stoll` range check of the
  scalar interpreter keeps the explicit int64 bounds.
* `double` payloads are carried opaquely (`Float`); no theorem
  computes with them.
* C++ functions that mutate through a reference are modelled as
  functions returning the updated value; functions that can `throw`
  return `Except String` or pair their result with `Option String`.
-/

set_option maxRecDepth 10000

namespace Hydra

/-- The tagged configuration value (`ConfigNode`, src/config_node.cpp):
exactly one active variant among null, bool, int64, double, string,
sequence and string-keyed mapping. -/
inductive Node where
  | null
  | bool (b : Bool)
  | int (i : Int)
  | double (d : Float)
  | string (s : String)
  | sequence (xs : List Node)
  | mapping (m : List (String × Node))

abbrev NodeMap := List (String × Node)

/-- `ConfigNode::is_null`. -/
def Node.is_null : Node → Bool
  | .null => true
  | _ => false

/-- `ConfigNode::is_mapping`. -/
def Node.is_mapping : Node → Bool
  | .mapping _ => true
  | _ => false

/-- `ConfigNode::is_sequence`. -/
def Node.is_sequence : Node → Bool
  | .sequence _ => true
  | _ => false

/-- `ConfigNode::is_string`. -/
def Node.is_string : Node → Bool
  | .string _ => true
  | _ => false

/-- `std::map::find`, first (unique) entry with the given key. -/
def map_find : NodeMap → String → Option Node
  | [], _ => none
  | (k, v) :: rest, key => if k = key then some v else map_find rest key

/-- `std::map::emplace`: inserts only when the key is absent,
otherwise leaves the map unchanged. -/
def map_emplace : NodeMap → String → Node → NodeMap
  | [], key, value => [(key, value)]
  | (k, v) :: rest, key, value =>
    if k = key then (k, v) :: rest else (k, v) :: map_emplace rest key value

/-- Assignment through a `std::map` iterator (`it->second = value`):
overwrites the entry in place (appends when absent, which never
happens at the call sites). -/
def map_set : NodeMap → String → Node → NodeMap
  | [], key, value => [(key, value)]
  | (k, v) :: rest, key, value =>
    if k = key then (k, value) :: rest else (k, v) :: map_set rest key value

/-- `std::map::erase` by key. -/
def map_erase : NodeMap → String → NodeMap
  | [], _ => []
  | (k, v) :: rest, key =>
    if k = key then rest else (k, v) :: map_erase rest key

/-- `deep_copy` (src/config_node.cpp): recursively rebuilds the tree. -/
def deep_copy : Node → Node
  | .null => .null
  | .bool b => .bool b
  | .int i => .int i
  | .double d => .double d
  | .string s => .string s
  | .sequence xs => .sequence (seq xs)
  | .mapping m => .mapping (map m)
where
  seq : List Node → List Node
    | [] => []
    | x :: xs => deep_copy x :: seq xs
  map : NodeMap → NodeMap
    | [] => []
    | (k, v) :: rest => (k, deep_copy v) :: map rest

/-- `merge(destination, source)` (src/config_node.cpp): null source
erases, null destination takes a deep copy, two mappings merge
key-by-key (`merge_maps`), anything else is replaced by a deep copy
of the source. -/
def merge : Node → Node → Node
  | _, .null => .null
  | .null, source => deep_copy source
  | .mapping d, .mapping s => .mapping (merge_maps d s)
  | _, source => deep_copy source
where
  /-- `merge_maps`: iterate the source entries; absent keys are
  emplaced as deep copies, present keys are merged recursively in
  place. -/
  merge_maps : NodeMap → NodeMap → NodeMap
    | destination, [] => destination
    | destination, (k, v) :: rest =>
      match map_find destination k with
      | none => merge_maps (map_emplace destination k (deep_copy v)) rest
      | some existing => merge_maps (map_set destination k (merge existing v)) rest

/-- `find_path` (src/config_node.cpp): walks mappings only; a missing
key or a non-mapping node before the path is exhausted yields
"not found" rather than an error. -/
def find_path : Node → List String → Option Node
  | n, [] => some n
  | .mapping m, component :: rest =>
    match map_find m component with
    | some child => find_path child rest
    | none => none
  | _, _ :: _ => none

/-- The walking loop of `assign_path` (src/config_node.cpp), acting on
the mapping entries of the current node.  Returns the updated entries
together with the error raised, if any; mutations performed before
the error persist, as they do through the C++ references. -/
def assign_go : NodeMap → String → List String → Node → Bool → NodeMap × Option String
  | m, segment, [], value, require_new =>
    match map_find m segment with
    | none =>
      if require_new then (map_emplace m segment value, none)
      else (m, some ("Key " ++ segment ++ " does not exist. Use +" ++ segment ++
            "=... to add new parameters."))
    | some _ =>
      if require_new then
        (m, some ("Cannot add new key " ++ segment ++ " because it already exists"))
      else (map_set m segment value, none)
  | m, segment, next :: rest, value, require_new =>
    match map_find m segment with
    | none =>
      if require_new then
        let result := assign_go [] next rest value require_new
        (map_emplace m segment (.mapping result.1), result.2)
      else (m, some ("Path component " ++ segment ++ " does not exist. Use +" ++
            segment ++ "=... to introduce new nested parameters."))
    | some (.mapping mm) =>
      let result := assign_go mm next rest value require_new
      (map_set m segment (.mapping result.1), result.2)
    | some _ => (m, some ("Path component " ++ segment ++
          " refers to a non-mapping node"))

/-- `assign_path(root, path, value, require_new)`
(src/config_node.cpp): empty paths and non-mapping, non-null roots are
errors; a null root is promoted to an empty mapping before the walk. -/
def assign_path (root : Node) (path : List String) (value : Node)
    (require_new : Bool) : Node × Option String :=
  match path with
  | [] => (root, some "Cannot assign empty path")
  | segment :: rest =>
    match root with
    | .mapping m =>
      let result := assign_go m segment rest value require_new
      (.mapping result.1, result.2)
    | .null =>
      let result := assign_go [] segment rest value require_new
      (.mapping result.1, result.2)
    | _ => (root, some "Root configuration is not a mapping")

/-- Character loop of `split_path_expression` (src/overrides.cpp):
`\` escapes the next character, an unescaped `.` closes the current
component; empty components, a trailing dot and a dangling escape are
errors.  The `std::string` accumulator is modelled as a `List Char`.
(The source message quotes the dot; the quotes are dropped here.) -/
def split_path_chars : List Char → List Char → Bool → Except String (List String)
  | [], current, escape =>
    if escape then .error "Dangling escape in override path"
    else if current = [] then .error "Override path cannot end with a dot"
    else .ok [String.mk current]
  | ch :: rest, current, escape =>
    if escape then split_path_chars rest (current ++ [ch]) false
    else if ch = '\\' then split_path_chars rest current true
    else if ch = '.' then
      if current = [] then .error "Empty path component in override expression"
      else (split_path_chars rest [] false).map (String.mk current :: ·)
    else split_path_chars rest (current ++ [ch]) false

/-- `split_path_expression` (src/overrides.cpp), also exported as
`parse_override_path`. -/
def split_path_expression (expression : String) : Except String (List String) :=
  split_path_chars expression.data [] false

/-- Character loop of `escape_path_segment` (src/c_api.cpp): prefixes
`.` and `\` with a backslash. -/
def escape_chars : List Char → List Char
  | [] => []
  | ch :: rest =>
    if ch = '.' ∨ ch = '\\' then '\\' :: ch :: escape_chars rest
    else ch :: escape_chars rest

/-- `escape_path_segment` (src/c_api.cpp). -/
def escape_path_segment (value : String) : String := String.mk (escape_chars value.data)

/-- `build_path_expression` (src/c_api.cpp): escapes each component
and joins them with dots. -/
def build_path_expression : List String → String
  | [] => ""
  | [c] => escape_path_segment c
  | c :: rest => escape_path_segment c ++ "." ++ build_path_expression rest

/-- The mapping-construction loop of `parse_mapping`
(src yaml_loader): each key/value pair surfaced by the tokenizer, in
document order, is added with `std::map::emplace` (which keeps an
existing entry). -/
def parse_mapping_entries (events : List (String × Node)) : NodeMap :=
  events.foldl (fun mapping kv => map_emplace mapping kv.1 kv.2) []

/-- `is_bool_keyword` (src/yaml_emitter.cpp). -/
def is_bool_keyword (value : String) : Bool :=
  value == "true" || value == "True" || value == "false" || value == "False"

/-- `is_null_keyword` (src/yaml_emitter.cpp). -/
def is_null_keyword (value : String) : Bool :=
  value == "null" || value == "Null" || value == "~"

/-- `needs_quoting` (src/yaml_emitter.cpp).  `looks_like_number` is
implemented with `std::strtod`, an external library routine, and is
therefore taken as a parameter. -/
def needs_quoting (looks_like_number : String → Bool) (value : String)
    (is_key : Bool) : Bool :=
  if value = "" then true
  else if is_bool_keyword value || is_null_keyword value ||
      looks_like_number value then true
  else if value.data.any (fun ch =>
      ch ∈ [':', '#', '&', '*', '?', '|', '-', '<', '>', '=', '!', '%', '@'])
    then true
  else if value.data.head? = some '-' || value.data.head? = some ' ' ||
      value.data.getLast? = some ' ' then true
  else if value.data.contains '\n' || value.data.contains '\t' then true
  else if is_key && value.data.contains '.' then true
  else false

/-- One character of `escape_string` (src/yaml_emitter.cpp). -/
def escape_string_char (ch : Char) : List Char :=
  if ch = '\\' then ['\\', '\\']
  else if ch = '"' then ['\\', '"']
  else if ch = '\n' then ['\\', 'n']
  else if ch = '\r' then ['\\', 'r']
  else if ch = '\t' then ['\\', 't']
  else [ch]

/-- `escape_string` (src/yaml_emitter.cpp): double quotes around the
value with C-style backslash escapes. -/
def escape_string (value : String) : String :=
  String.mk ('"' :: (value.data.map escape_string_char).flatten ++ ['"'])

/-- `format_scalar` (src/yaml_emitter.cpp).  The `std::ostream`
`setprecision(15)` rendering of a double is external and taken as the
parameter `fmt_double`. -/
def format_scalar (fmt_double : Float → String)
    (looks_like_number : String → Bool) : Node → Except String String
  | .null => .ok "null"
  | .bool b => .ok (if b then "true" else "false")
  | .int i => .ok (toString i)
  | .double d => .ok (fmt_double d)
  | .string value =>
    .ok (if needs_quoting looks_like_number value false then escape_string value
         else value)
  | _ => .error "Cannot format non-scalar node directly"

/-- `to_lower` (src yaml_loader): byte-wise `std::tolower`, which in
the C locale lowercases exactly the ASCII letters, as does
`Char.toLower` on them. -/
def to_lower (s : String) : String := String.mk (s.data.map Char.toLower)

/-- Digit run check of `is_integer_literal` (src yaml_loader). -/
def digits_only : List Char → Bool
  | [] => true
  | c :: rest => c.isDigit && digits_only rest

/-- `is_integer_literal` (src yaml_loader): optional sign, then
digits, rejecting a leading zero followed by more characters. -/
def is_integer_literal (text : List Char) : Bool :=
  match text with
  | [] => false
  | c :: rest =>
    let body := if c = '-' ∨ c = '+' then rest else c :: rest
    match body with
    | [] => false
    | c0 :: rest0 =>
      if c0 = '0' ∧ rest0 ≠ [] then false
      else c0.isDigit && digits_only rest0

/-- Scanning loop of `is_float_literal` (src yaml_loader), carrying
the `has_digit` / `has_dot` / `has_exp` state, including the
skip-the-exponent-sign step. -/
def is_float_literal_loop : List Char → Bool → Bool → Bool → Bool
  | [], has_digit, has_dot, has_exp => has_digit && (has_dot || has_exp)
  | ch :: rest, has_digit, has_dot, has_exp =>
    if ch.isDigit then is_float_literal_loop rest true has_dot has_exp
    else if ch = '.' then
      if has_dot || has_exp then false
      else is_float_literal_loop rest has_digit true has_exp
    else if ch = 'e' ∨ ch = 'E' then
      if has_exp || !has_digit then false
      else
        match rest with
        | c2 :: rest2 =>
          if c2 = '+' ∨ c2 = '-' then is_float_literal_loop rest2 false has_dot true
          else is_float_literal_loop (c2 :: rest2) false has_dot true
        | [] => is_float_literal_loop [] false has_dot true
    else false

/-- `is_float_literal` (src yaml_loader). -/
def is_float_literal (text : List Char) : Bool :=
  match text with
  | [] => false
  | c :: rest =>
    if c = '-' ∨ c = '+' then
      match rest with
      | [] => false
      | _ :: _ => is_float_literal_loop rest false false false
    else is_float_literal_loop (c :: rest) false false false

/-- Decimal digits to their value. -/
def digits_value (digits : List Char) : Int :=
  digits.foldl (fun acc c => acc * 10 + (Int.ofNat (c.toNat - 48))) 0

/-- Modelled after external `std::stoll` on a `[sign]digits` literal
(the only shape reaching it behind `is_integer_literal`): the parsed
value when it fits `int64_t`, none when `std::out_of_range` would be
thrown. -/
def stoll_int64 (text : List Char) : Option Int :=
  let signed : Int :=
    match text with
    | '-' :: rest => -(digits_value rest)
    | '+' :: rest => digits_value rest
    | _ => digits_value text
  if -(2 ^ 63) ≤ signed ∧ signed ≤ 2 ^ 63 - 1 then some signed else none

/-- `interpret_scalar` (src yaml_loader) on the raw text of a scalar
event: case-insensitive null/bool keywords, then the int64 literal
attempt with fall-through on overflow, then the float literal attempt
with fall-through when `std::stod` throws, else a plain string.
`std::stod` is external and taken as the parameter `stod` (`none`
models a throw). -/
def interpret_scalar (stod : String → Option Float) (value : String) : Node :=
  let lower := to_lower value
  if lower = "null" ∨ lower = "~" then .null
  else if lower = "true" then .bool true
  else if lower = "false" then .bool false
  else
    match (if is_integer_literal value.data then stoll_int64 value.data else none) with
    | some parsed => .int parsed
    | none =>
      if is_float_literal value.data then
        match stod value with
        | some parsed => .double parsed
        | none => .string value
      else .string value

/-- `indentation` (src/yaml_emitter.cpp). -/
def indentation (indent : Nat) : String := String.mk (List.replicate indent ' ')

/-- `emit_node` / `emit_sequence` / `emit_mapping`
(src/yaml_emitter.cpp), writing to a string instead of a stream. -/
def emit_node (fmt_double : Float → String) (looks_like_number : String → Bool) :
    Node → Nat → Except String String
  | .mapping m, indent => emitMap m indent
  | .sequence xs, indent => emitSeq xs indent
  | node, indent => do
    let s ← format_scalar fmt_double looks_like_number node
    pure (indentation indent ++ s ++ "\n")
where
  emitSeq : List Node → Nat → Except String String
    | [], indent => .ok (indentation indent ++ "[]\n")
    | items, indent => emitSeqItems items indent
  emitSeqItems : List Node → Nat → Except String String
    | [], _ => .ok ""
    | item :: rest, indent => do
      let head ←
        match item with
        | .mapping mm =>
          if mm.isEmpty then pure (indentation indent ++ "- \x7b\x7d\n")
          else do
            let inner ← emitMap mm (indent + 2)
            pure (indentation indent ++ "-\n" ++ inner)
        | .sequence ss =>
          if ss.isEmpty then pure (indentation indent ++ "- []\n")
          else do
            let inner ← emitSeq ss (indent + 2)
            pure (indentation indent ++ "-\n" ++ inner)
        | other => do
          let s ← format_scalar fmt_double looks_like_number other
          pure (indentation indent ++ "- " ++ s ++ "\n")
      let tail ← emitSeqItems rest indent
      pure (head ++ tail)
  emitMap : NodeMap → Nat → Except String String
    | [], indent => .ok (indentation indent ++ "\x7b\x7d\n")
    | entries, indent => emitMapItems entries indent
  emitMapItems : NodeMap → Nat → Except String String
    | [], _ => .ok ""
    | (key, value) :: rest, indent => do
      let fkey :=
        if needs_quoting looks_like_number key true then escape_string key else key
      let head ←
        match value with
        | .mapping mm =>
          if mm.isEmpty then
            pure (indentation indent ++ fkey ++ ": \x7b\x7d\n")
          else do
            let inner ← emitMap mm (indent + 2)
            pure (indentation indent ++ fkey ++ ":\n" ++ inner)
        | .sequence ss =>
          if ss.isEmpty then
            pure (indentation indent ++ fkey ++ ": []\n")
          else do
            let inner ← emitSeq ss (indent + 2)
            pure (indentation indent ++ fkey ++ ":\n" ++ inner)
        | other => do
          let s ← format_scalar fmt_double looks_like_number other
          pure (indentation indent ++ fkey ++ ": " ++ s ++ "\n")
      let tail ← emitMapItems rest indent
      pure (head ++ tail)

/-- Modelled from the spec: the external YAML tokenizer (libyaml, not
part of this repository) "surfaces scalar values as raw text".  For a
single-scalar document as emitted by `format_scalar`, the raw text of
a plain scalar is the text itself and the raw text of a double-quoted
scalar is its unescaped content; the quoting style is not part of
what `interpret_scalar` consumes. -/
def unescape_chars : List Char → List Char
  | [] => []
  | '\\' :: esc :: rest =>
    (if esc = 'n' then '\n'
     else if esc = 'r' then '\r'
     else if esc = 't' then '\t'
     else esc) :: unescape_chars rest
  | ch :: rest => ch :: unescape_chars rest

/-- Modelled from the spec (see `unescape_chars`): the scalar event
text surfaced for one emitted scalar line. -/
def scalar_event_text (line : String) : String :=
  match line.data with
  | '"' :: rest => String.mk (unescape_chars rest.dropLast)
  | _ => line

/-- Re-parsing a serialized single-scalar document: the tokenizer
surfaces the scalar raw text, `interpret_scalar` interprets it. -/
def reparse_scalar_document (stod : String → Option Float) (line : String) : Node :=
  interpret_scalar stod (scalar_event_text line)

/-- The `ostringstream` loop of `join_path` (src interpolation),
writing each component with `.` separators. -/
def join_path_chars : List String → List Char
  | [] => []
  | [c] => c.data
  | c :: rest => c.data ++ '.' :: join_path_chars rest

/-- `join_path` (src interpolation): dot-joined rendering of a
traversal path, `<root>` for the empty path. -/
def join_path (path : List String) : String :=
  match path with
  | [] => "<root>"
  | _ => String.mk (join_path_chars path)

/-- `expression.rfind(prefix, 0) == 0`: a character-wise prefix
test. -/
def starts_with : List Char → List Char → Bool
  | _, [] => true
  | [], _ :: _ => false
  | c :: rest, p :: ps => c = p && starts_with rest ps

/-- `std::isspace` in the C locale. -/
def is_cspace (c : Char) : Bool :=
  c = ' ' || c = '\t' || c = '\n' || c = '\x0b' || c = '\x0c' || c = '\r'

/-- `trim_copy` (src interpolation): strips leading and trailing
C-locale whitespace. -/
def trim_copy (text : String) : String :=
  String.mk (((text.data.dropWhile is_cspace).reverse.dropWhile is_cspace).reverse)

/-- External behaviours reaching the interpolation resolver:
`format_now` samples the current local clock (src time_utils) and the
`std::ostream` rendering of a double is library code; both are taken
as parameters. -/
structure Extern where
  now_fmt : String → String
  fmt_double : Float → String

/-- `node_to_string` (src interpolation): stringification of scalar
nodes; containers are an error. -/
def node_to_string (ext : Extern) : Node → Except String String
  | .string s => .ok s
  | .int i => .ok (toString i)
  | .double d => .ok (ext.fmt_double d)
  | .bool b => .ok (if b then "true" else "false")
  | .null => .ok "null"
  | _ => .error "Cannot interpolate complex node types"

/-- The process environment, as consulted by `std::getenv`. -/
abbrev Env := List (String × String)

/-- `std::getenv` over the modelled environment. -/
def env_find : Env → String → Option String
  | [], _ => none
  | (name, value) :: rest, key =>
    if name = key then some value else env_find rest key

/-- Locating a sequence element by its rendered index
(`std::to_string(idx)`), as the resolver names sequence children on
its paths. -/
def seq_get : List Node → Nat → String → Option Node
  | [], _, _ => none
  | x :: xs, idx, c => if toString idx = c then some x else seq_get xs (idx + 1) c

/-- Replacing the sequence element named by its rendered index. -/
def seq_set : List Node → Nat → String → Node → List Node
  | [], _, _, _ => []
  | x :: xs, idx, c, v =>
    if toString idx = c then v :: xs else x :: seq_set xs (idx + 1) c v

/-- Reading a node through a C++ reference obtained during traversal:
child references are addressed by mapping key or by rendered
sequence index, exactly the components the resolver appends to its
paths. -/
def get_at : Node → List String → Option Node
  | n, [] => some n
  | .mapping m, c :: rest => (map_find m c).bind (fun child => get_at child rest)
  | .sequence xs, c :: rest =>
    (seq_get xs 0 c).bind (fun child => get_at child rest)
  | _, _ :: _ => none

/-- Writing through such a reference (`node = make_string(...)`):
replaces the addressed node, leaving everything else in place.  A
dangling path writes nothing (unreachable in executions, where paths
always address an existing node). -/
def set_at : Node → List String → Node → Node
  | _, [], v => v
  | .mapping m, c :: rest, v =>
    match map_find m c with
    | some child => .mapping (map_set m c (set_at child rest v))
    | none => .mapping m
  | .sequence xs, c :: rest, v =>
    match seq_get xs 0 c with
    | some child => .sequence (seq_set xs 0 c (set_at child rest v))
    | none => .sequence xs
  | n, _ :: _, _ => n

/-- `std::set<std::string>::erase` on a set modelled as a list of
distinct strings. -/
def set_erase : List String → String → List String
  | [], _ => []
  | x :: rest, key => if x = key then rest else x :: set_erase rest key

/-- The canonical traversal paths of a tree: every node addressed by
mapping keys and rendered sequence indices.  This is the (finite)
universe from which the resolver's bookkeeping keys are drawn. -/
def node_paths : Node → List (List String)
  | .mapping m => [] :: go_map m
  | .sequence xs => [] :: go_seq xs 0
  | _ => [[]]
where
  go_map : NodeMap → List (List String)
    | [] => []
    | (k, v) :: rest => (node_paths v).map (fun p => k :: p) ++ go_map rest
  go_seq : List Node → Nat → List (List String)
    | [], _ => []
    | x :: xs, idx =>
      (node_paths x).map (fun p => toString idx :: p) ++ go_seq xs (idx + 1)

/-- The shape of a tree: mapping keys and sequence layout with every
scalar payload erased.  The resolver only rewrites string leaves in
place, so it preserves the shape, and with it the key universe
enumerated by `node_paths`. -/
def skeleton : Node → Node
  | .mapping m => .mapping (go_map m)
  | .sequence xs => .sequence (go_seq xs)
  | _ => .null
where
  go_map : NodeMap → NodeMap
    | [] => []
    | (k, v) :: rest => (k, skeleton v) :: go_map rest
  go_seq : List Node → List Node
    | [] => []
    | x :: xs => skeleton x :: go_seq xs

/-- The interpolation pass state: the tree being resolved in place
and the two bookkeeping sets (`resolving`, `resolved`) keyed by
rendered path. -/
structure RState where
  root : Node
  resolving : List String
  resolved : List String

/-- Interpolation errors; `.fuel` marks recursion-budget exhaustion
of the embedding and corresponds to no behaviour of the code. -/
inductive RErr where
  | fuel
  | err (msg : String)

/-- The number of canonical keys of the tree not yet in the
in-progress set: the strictly decreasing measure of the resolver's
cross-node recursion. -/
def r_avail (s : RState) : Nat :=
  (((node_paths s.root).map join_path).filter
    (fun k => decide (k ∉ s.resolving))).length

/-- The scan for the next `${`: the text before it and the text
after, when present (`value.find("${", pos)` in `resolve_string`). -/
def find_dollar_brace : List Char → Option (List Char × List Char)
  | [] => none
  | '$' :: '\x7b' :: rest => some ([], rest)
  | c :: rest =>
    (find_dollar_brace rest).map (fun pair => (c :: pair.1, pair.2))

/-- The scan for the matching `}` (`value.find('\x7d', start + 2)`). -/
def find_close_brace : List Char → Option (List Char × List Char)
  | [] => none
  | '\x7d' :: rest => some ([], rest)
  | c :: rest =>
    (find_close_brace rest).map (fun pair => (c :: pair.1, pair.2))

/-- `body.find(',')` split of an `oc.env:` body into variable name
and optional fallback text. -/
def split_first_comma : List Char → List Char × Option (List Char)
  | [] => ([], none)
  | ',' :: rest => ([], some rest)
  | c :: rest =>
    let pair := split_first_comma rest
    (c :: pair.1, pair.2)

mutual

/-- `resolve_node` (src interpolation): early return on resolved
keys, cycle error on re-entrant keys, then recursion into children
(mappings by key, sequences by index) or placeholder substitution for
strings, finishing by moving the key from `resolving` to `resolved`.
Every recursive call spends one unit of fuel. -/
def resolve_node (ext : Extern) (env : Env) :
    Nat → RState → List String → Except RErr RState
  | 0, _, _ => .error .fuel
  | fuel+1, s, path => do
    let key := join_path path
    if key ∈ s.resolved then pure s
    else if key ∈ s.resolving then
      .error (.err ("Detected interpolation cycle involving " ++ key))
    else
      let s1 : RState := { s with resolving := key :: s.resolving }
      let s2 ←
        match get_at s1.root path with
        | some (.mapping m) =>
          resolve_children ext env fuel s1 path (m.map Prod.fst)
        | some (.sequence xs) =>
          resolve_seq_children ext env fuel s1 path 0 xs.length
        | some (.string v) => do
          let pair ← resolve_string ext env fuel s1 path v.data
          pure { pair.2 with root := set_at pair.2.root path (.string pair.1) }
        | _ => pure s1
      pure { s2 with resolving := set_erase s2.resolving key,
                     resolved := key :: s2.resolved }

/-- The `for (auto& entry : node.as_mapping())` loop of
`resolve_node`, over the (stable) key list. -/
def resolve_children (ext : Extern) (env : Env) :
    Nat → RState → List String → List String → Except RErr RState
  | 0, _, _, _ => .error .fuel
  | _+1, s, _, [] => pure s
  | fuel+1, s, path, k :: ks => do
    let s2 ← resolve_node ext env fuel s (path ++ [k])
    resolve_children ext env fuel s2 path ks

/-- The `for (size_t idx = 0; idx < seq.size(); ++idx)` loop of
`resolve_node`, counting `remaining` down from the (stable) length. -/
def resolve_seq_children (ext : Extern) (env : Env) :
    Nat → RState → List String → Nat → Nat → Except RErr RState
  | 0, _, _, _, _ => .error .fuel
  | _+1, s, _, _, 0 => pure s
  | fuel+1, s, path, idx, r+1 => do
    let s2 ← resolve_node ext env fuel s (path ++ [toString idx])
    resolve_seq_children ext env fuel s2 path (idx + 1) r

/-- `resolve_string` (src interpolation): replaces each `${...}`
placeholder by its evaluated expression, keeping the literal text
around it; an unmatched closing delimiter is fatal.  (The source
message quotes the placeholder syntax; it is shortened here.) -/
def resolve_string (ext : Extern) (env : Env) :
    Nat → RState → List String → List Char → Except RErr (String × RState)
  | 0, _, _, _ => .error .fuel
  | fuel+1, s, path, chars =>
    match find_dollar_brace chars with
    | none => pure (String.mk chars, s)
    | some (pre, after) =>
      match find_close_brace after with
      | none => .error (.err "Unterminated placeholder")
      | some (expr, rest) => do
        let pair ← resolve_expression ext env fuel s path (String.mk expr)
        let tail ← resolve_string ext env fuel pair.2 path rest
        pure (String.mk pre ++ pair.1 ++ tail.1, tail.2)

/-- `resolve_expression` (src interpolation): `now:` samples the
clock, `oc.env:` consults the environment, anything else is a dotted
reference that is recursively resolved before being read. -/
def resolve_expression (ext : Extern) (env : Env) :
    Nat → RState → List String → String → Except RErr (String × RState)
  | 0, _, _, _ => .error .fuel
  | fuel+1, s, path, expression =>
    if starts_with expression.data "now:".data then
      pure (ext.now_fmt (String.mk (expression.data.drop 4)), s)
    else if starts_with expression.data "oc.env:".data then
      resolve_env_expression ext env fuel s path (String.mk (expression.data.drop 7))
    else do
      let target_path ←
        match split_path_expression expression with
        | .ok p => pure p
        | .error e => .error (.err e)
      match find_path s.root target_path with
      | none =>
        .error (.err ("Interpolation reference " ++ expression ++ " not found"))
      | some _ => do
        let s2 ← resolve_node ext env fuel s target_path
        match find_path s2.root target_path with
        | none =>
          .error (.err ("Interpolation reference " ++ expression ++ " not found"))
        | some target =>
          match node_to_string ext target with
          | .ok text => pure (text, s2)
          | .error e => .error (.err e)

/-- `resolve_env_expression` (src interpolation): a set, non-empty
variable wins; otherwise a non-empty fallback is resolved through the
full expression grammar at the same path; otherwise the empty
string. -/
def resolve_env_expression (ext : Extern) (env : Env) :
    Nat → RState → List String → String → Except RErr (String × RState)
  | 0, _, _, _ => .error .fuel
  | fuel+1, s, path, body =>
    let split := split_first_comma body.data
    let var := trim_copy (String.mk split.1)
    let fallback :=
      match split.2 with
      | none => ""
      | some cs => trim_copy (String.mk cs)
    match env_find env var with
    | some value =>
      if value ≠ "" then pure (value, s)
      else if fallback = "" then pure ("", s)
      else resolve_string ext env fuel s path fallback.data
    | none =>
      if fallback = "" then pure ("", s)
      else resolve_string ext env fuel s path fallback.data

end

/-- `resolve_interpolations` (src interpolation): a whole-tree pass
starting from empty bookkeeping sets at the root path. -/
def resolve_interpolations (ext : Extern) (env : Env) (fuel : Nat)
    (root : Node) : Except RErr Node :=
  (resolve_node ext env fuel ⟨root, [], []⟩ []).map RState.root

/-- The abstract filesystem of the composition engine: canonical
source path to the tree the external tokenizer parses from it
(`parse_yaml_file_raw`). -/
abbrev FileSys := List (String × Node)

/-- Lookup in the abstract filesystem (both `parse_yaml_file_raw` and
`std::filesystem::exists` consult it). -/
def fs_find : FileSys → String → Option Node
  | [], _ => none
  | (p, n) :: rest, path => if p = path then some n else fs_find rest path

/-- `normalize_path` (weakly-canonical form): the abstract filesystem
is keyed by already-canonical paths, so this is the identity. -/
def normalize_path (path : String) : String := path

/-- `std::filesystem::path::parent_path` on a POSIX-style path:
everything before the last slash. -/
def parent_path (path : String) : String :=
  String.mk (((path.data.reverse.dropWhile (fun c => c ≠ '/')).drop 1).reverse)

/-- `std::filesystem::path::has_extension`, modelled as: the last
component contains a dot. -/
def has_extension (path : String) : Bool :=
  (path.data.reverse.takeWhile (fun c => c ≠ '/')).contains '.'

/-- `std::filesystem::path::is_relative` on POSIX: no leading
slash. -/
def is_relative (path : String) : Bool :=
  match path.data with
  | '/' :: _ => false
  | _ => true

/-- A parsed `defaults` entry (`DefaultSpec`, src yaml_loader). -/
structure DefaultSpec where
  include_path : String
  target_path : Option (List String)
  optional : Bool

/-- The leading `?` / optional-space stripping shared by both entry
shapes of `parse_default_entry`. -/
def strip_optional (value : String) : Bool × String :=
  match value.data with
  | '?' :: rest =>
    (true, String.mk (match rest with | ' ' :: r => r | r => r))
  | _ => (false, value)

/-- Resolving an include name against the including file's directory:
default `.yaml` extension when none is present, then base-directory
prefixing for relative paths (`lexically_normal` is the identity on
the already-normal paths used here). -/
def resolve_candidate (value : String) (base_dir : String) : String :=
  let candidate := if has_extension value then value else value ++ ".yaml"
  if is_relative candidate then base_dir ++ "/" ++ candidate else candidate

/-- `parse_default_entry` (src yaml_loader): a bare string names a
relative include; a one-entry `{group: name}` mapping names an
include placed under the `group` path; anything else is fatal. -/
def parse_default_entry (entry : Node) (base_dir : String) :
    Except String DefaultSpec :=
  match entry with
  | .string value =>
    let stripped := strip_optional value
    let cleaned := trim_copy stripped.2
    .ok ⟨resolve_candidate cleaned base_dir, none, stripped.1⟩
  | .mapping m =>
    match m with
    | [(key, value)] =>
      match value with
      | .string name =>
        let stripped := strip_optional key
        let cleaned := trim_copy stripped.2
        match split_path_expression cleaned with
        | .error e => .error e
        | .ok target_path =>
          .ok ⟨resolve_candidate (cleaned ++ "/" ++ name) base_dir,
               some target_path, stripped.1⟩
      | _ => .error "defaults mapping values must be strings"
    | _ => .error "defaults entries as mappings must contain exactly one key"
  | _ => .error "Unsupported defaults entry type"

/-- Placing one `{group: name}` result into the accumulator
(src yaml_loader, inside `load_with_includes`): merge into an
existing node at the group path, insert with `require_new` when
absent. -/
def place_group_result (acc : Node) (target : List String) (child : Node) :
    Except RErr Node :=
  match find_path acc target with
  | none =>
    let r := assign_path acc target child true
    match r.2 with
    | none => pure r.1
    | some e => .error (.err e)
  | some existing => pure (set_at acc target (merge existing child))

/-- `entry.is_string() && entry.as_string() == "_self_"`. -/
def is_self_marker : Node → Bool
  | .string s => s = "_self_"
  | _ => false

mutual

/-- `load_with_includes` (src yaml_loader): canonicalize, guard
against a re-entrant path, read and parse the source, process its
`defaults` into an accumulator, then merge the root's remaining
content on top.  The recursive descent spends fuel. -/
def load_with_includes (fs : FileSys) : Nat → String → List String → Except RErr Node
  | 0, _, _ => .error .fuel
  | fuel+1, path, stack =>
    let normalized := normalize_path path
    if normalized ∈ stack then
      .error (.err ("Detected recursive configuration include involving " ++
        normalized))
    else
      match fs_find fs normalized with
      | none => .error (.err ("Failed to open YAML file " ++ normalized))
      | some root =>
        match root with
        | .mapping m => do
          let defaults_result ←
            match map_find m "defaults" with
            | some (.sequence defaults) =>
              load_defaults fs fuel (normalized :: stack)
                (parent_path normalized) defaults (.mapping [])
            | some _ => .error (.err "defaults must be a sequence")
            | none => pure (.mapping [])
          pure (merge defaults_result (.mapping (map_erase m "defaults")))
        | _ => pure root

/-- The `for (const auto& entry : defaults)` loop of
`load_with_includes`: skip the `_self_` sentinel, parse the entry,
skip a missing optional include, fail on a missing mandatory one,
recursively load, and merge or place the result. -/
def load_defaults (fs : FileSys) : Nat → List String → String → List Node → Node → Except RErr Node
  | 0, _, _, _, _ => .error .fuel
  | _+1, _, _, [], acc => pure acc
  | fuel+1, stack, base_dir, entry :: rest, acc =>
    if is_self_marker entry then
      load_defaults fs fuel stack base_dir rest acc
    else do
      let spec ←
        match parse_default_entry entry base_dir with
        | .ok spec => pure spec
        | .error e => .error (.err e)
      if (fs_find fs spec.include_path).isSome = false then
        if spec.optional then load_defaults fs fuel stack base_dir rest acc
        else .error (.err ("Included configuration " ++ spec.include_path ++
          " not found"))
      else do
        let child ← load_with_includes fs fuel spec.include_path stack
        let acc2 ←
          match spec.target_path with
          | some target => place_group_result acc target child
          | none => pure (merge acc child)
        load_defaults fs fuel stack base_dir rest acc2

end

/-- `load_yaml_file` (src yaml_loader): a fresh visiting stack. -/
def load_yaml_file (fs : FileSys) (fuel : Nat) (path : String) : Except RErr Node :=
  load_with_includes fs fuel path []

/-- The number of filesystem entries not yet on the visiting stack:
the strictly decreasing measure of the include recursion. -/
def fs_avail (fs : FileSys) (stack : List String) : Nat :=
  ((fs.map Prod.fst).filter (fun p => decide (p ∉ stack))).length

end Hydra

namespace Hydra

theorem map_find_nil (key : String) : map_find [] key = none := rfl

theorem map_find_emplace_same (m : NodeMap) (k : String) (v : Node) :
    map_find (map_emplace m k v) k = some ((map_find m k).getD v) := by
  induction m with
  | nil => simp [map_emplace, map_find]
  | cons hd tl ih =>
    obtain ⟨k0, v0⟩ := hd
    by_cases h : k0 = k <;> simp [map_emplace, map_find, h, ih]

theorem map_find_emplace_other (m : NodeMap) (k k' : String) (v : Node)
    (h : k ≠ k') : map_find (map_emplace m k v) k' = map_find m k' := by
  induction m with
  | nil => simp [map_emplace, map_find, h]
  | cons hd tl ih =>
    obtain ⟨k0, v0⟩ := hd
    by_cases h0 : k0 = k <;> simp [map_emplace, map_find, h0, ih]

theorem map_find_set_same (m : NodeMap) (k : String) (v : Node) :
    map_find (map_set m k v) k = some v := by
  induction m with
  | nil => simp [map_set, map_find]
  | cons hd tl ih =>
    obtain ⟨k0, v0⟩ := hd
    by_cases h : k0 = k <;> simp [map_set, map_find, h, ih]

theorem map_find_set_other (m : NodeMap) (k k' : String) (v : Node)
    (h : k ≠ k') : map_find (map_set m k v) k' = map_find m k' := by
  induction m with
  | nil => simp [map_set, map_find, h]
  | cons hd tl ih =>
    obtain ⟨k0, v0⟩ := hd
    by_cases h0 : k0 = k <;> simp [map_set, map_find, h0, h, ih]

theorem map_find_eq_none_of_not_mem (m : NodeMap) (k : String)
    (h : k ∉ m.map Prod.fst) : map_find m k = none := by
  induction m with
  | nil => rfl
  | cons hd tl ih =>
    obtain ⟨k0, v0⟩ := hd
    simp only [List.map_cons, List.mem_cons, not_or] at h
    have : ¬ k0 = k := fun he => h.1 he.symm
    simp [map_find, this, ih h.2]

/-- Lookup characterization of `merge_maps`: keys only in the
destination are kept, keys only in the source are deep-copied in,
keys in both are merged recursively. -/
theorem merge_maps_find (s d : NodeMap) (k : String)
    (hs : (s.map Prod.fst).Nodup) :
    map_find (merge.merge_maps d s) k =
      match map_find d k, map_find s k with
      | some e, some v => some (merge e v)
      | none, some v => some (deep_copy v)
      | some e, none => some e
      | none, none => none := by
  induction s generalizing d with
  | nil =>
    cases h : map_find d k <;> simp [merge.merge_maps, map_find, h]
  | cons hd tl ih =>
    obtain ⟨k0, v0⟩ := hd
    simp only [List.map_cons, List.nodup_cons] at hs
    obtain ⟨hk0, htl⟩ := hs
    by_cases hkk : k0 = k
    · subst hkk
      have hnotin : map_find tl k0 = none :=
        map_find_eq_none_of_not_mem tl k0 hk0
      cases hf : map_find d k0 with
      | none =>
        simp only [merge.merge_maps, hf]
        rw [ih _ htl, map_find_emplace_same, hf, hnotin, map_find, if_pos rfl]
        simp
      | some e =>
        simp only [merge.merge_maps, hf]
        rw [ih _ htl, map_find_set_same, hnotin, map_find, if_pos rfl]
    · have hstep : map_find ((k0, v0) :: tl) k = map_find tl k := by
        simp [map_find, hkk]
      cases hf : map_find d k0 with
      | none =>
        simp only [merge.merge_maps, hf]
        rw [ih _ htl, map_find_emplace_other _ _ _ _ hkk, hstep]
      | some e =>
        simp only [merge.merge_maps, hf]
        rw [ih _ htl, map_find_set_other _ _ _ _ hkk, hstep]

/-- Claim C1: `merge(destination, source)` leaves the destination as
follows: a null source makes it null; a null destination becomes a
deep copy of a non-null source; two mappings merge key-by-key, with
source-only keys deep-copied in, destination-only keys kept, and
shared keys merged recursively; in every other case the destination
becomes a deep copy of the source. -/
theorem merge_semantics :
    (∀ d : Node, merge d .null = .null) ∧
    (∀ s : Node, s.is_null = false → merge .null s = deep_copy s) ∧
    (∀ d s : NodeMap, merge (.mapping d) (.mapping s) = .mapping (merge.merge_maps d s)) ∧
    (∀ d s : NodeMap, ∀ k : String, (s.map Prod.fst).Nodup →
      map_find (merge.merge_maps d s) k =
        match map_find d k, map_find s k with
        | some e, some v => some (merge e v)
        | none, some v => some (deep_copy v)
        | some e, none => some e
        | none, none => none) ∧
    (∀ d s : Node, s.is_null = false → d.is_null = false →
      ¬(d.is_mapping = true ∧ s.is_mapping = true) → merge d s = deep_copy s) := by
  refine ⟨?_, ?_, ?_, ?_, ?_⟩
  · intro d; cases d <;> rfl
  · intro s hs; cases s <;> simp_all [merge, Node.is_null]
  · intro d s; rfl
  · intro d s k hs; exact merge_maps_find s d k hs
  · intro d s hs hd hnot
    cases d <;> cases s <;>
      simp_all [merge, Node.is_null, Node.is_mapping]

/-- Witness for C1 at concrete inputs: merging
`{a: {x: 1}, b: 2}` with `{a: {y: 3}, c: 4}` keeps `b`, copies in
`c`, and merges `a` recursively. -/
theorem merge_semantics_witness :
    merge (.mapping [("b", .int 2)]) .null = .null ∧
    merge .null (.int 7) = deep_copy (.int 7) ∧
    map_find
      (merge.merge_maps
        [("a", .mapping [("x", .int 1)]), ("b", .int 2)]
        [("a", .mapping [("y", .int 3)]), ("c", .int 4)]) "a" =
      some (merge (.mapping [("x", .int 1)]) (.mapping [("y", .int 3)])) ∧
    merge (.sequence [.int 1]) (.sequence [.int 2]) = deep_copy (.sequence [.int 2]) := by
  refine ⟨merge_semantics.1 _, merge_semantics.2.1 _ (by decide), ?_, ?_⟩
  · have h := merge_semantics.2.2.2.1
      [("a", .mapping [("x", .int 1)]), ("b", .int 2)]
      [("a", .mapping [("y", .int 3)]), ("c", .int 4)] "a"
      (by simp)
    rw [h]; rfl
  · exact merge_semantics.2.2.2.2 _ _ rfl rfl (by simp [Node.is_mapping])

theorem map_set_self (m : NodeMap) (k : String) (v : Node)
    (h : map_find m k = some v) : map_set m k v = m := by
  induction m with
  | nil => simp [map_find] at h
  | cons hd tl ih =>
    obtain ⟨k0, v0⟩ := hd
    by_cases h0 : k0 = k
    · subst h0
      have hv : v0 = v := by simpa [map_find] using h
      subst hv
      simp [map_set]
    · simp only [map_find, if_neg h0] at h
      simp [map_set, h0, ih h]

/-- With `require_new` true, the walk starting from a freshly created
empty mapping can never fail: every key on the remaining path is
absent, so it is created. -/
theorem assign_go_fresh_ok (rest : List String) (segment : String)
    (value : Node) : (assign_go [] segment rest value true).2 = none := by
  induction rest generalizing segment with
  | nil => rfl
  | cons next rest ih => simp [assign_go, map_find, ih]

/-- If the walk reports an error, the mapping it was given is returned
unchanged: no intermediate mapping created during a failing call
remains. -/
theorem assign_go_error_id (rest : List String) (m : NodeMap)
    (segment : String) (value : Node) (require_new : Bool) (e : String)
    (h : (assign_go m segment rest value require_new).2 = some e) :
    (assign_go m segment rest value require_new).1 = m := by
  induction rest generalizing m segment with
  | nil =>
    cases hf : map_find m segment <;>
      cases require_new <;>
      simp_all [assign_go]
  | cons next rest ih =>
    cases hf : map_find m segment with
    | none =>
      cases require_new with
      | false => simp [assign_go, hf]
      | true =>
        exfalso
        have := assign_go_fresh_ok rest next value
        simp [assign_go, hf, this] at h
    | some child =>
      cases child with
      | mapping mm =>
        have h2 : (assign_go mm next rest value require_new).2 = some e := by
          simpa [assign_go, hf] using h
        have h1 := ih mm next h2
        simp [assign_go, hf, h1, map_set_self m segment _ hf]
      | null => simp [assign_go, hf]
      | bool b => simp [assign_go, hf]
      | int i => simp [assign_go, hf]
      | double d => simp [assign_go, hf]
      | string s => simp [assign_go, hf]
      | sequence xs => simp [assign_go, hf]

/-- Claim C3: for a mapping (or null) root and a non-empty path, the
leaf write of `assign_path` is an update exactly when the key exists
and `require_new` is false, an insert exactly when the key is absent
and `require_new` is true; the two other combinations are errors
naming the offending segment, and absent intermediate mappings are
created only when `require_new` is true.  On an empty tree, assigning
`["a","b"]` fails without `require_new`, succeeds with it (and
`find_path` then returns the value), fails when re-run with
`require_new`, and updates when re-run without it. -/
theorem assign_path_semantics :
    (∀ (m : NodeMap) (seg : String) (v : Node), map_find m seg = none →
      assign_go m seg [] v true = (map_emplace m seg v, none)) ∧
    (∀ (m : NodeMap) (seg : String) (v : Node), map_find m seg = none →
      assign_go m seg [] v false =
        (m, some ("Key " ++ seg ++ " does not exist. Use +" ++ seg ++
          "=... to add new parameters."))) ∧
    (∀ (m : NodeMap) (seg : String) (v e : Node), map_find m seg = some e →
      assign_go m seg [] v false = (map_set m seg v, none)) ∧
    (∀ (m : NodeMap) (seg : String) (v e : Node), map_find m seg = some e →
      assign_go m seg [] v true =
        (m, some ("Cannot add new key " ++ seg ++ " because it already exists"))) ∧
    (∀ (m : NodeMap) (seg next : String) (rest : List String) (v : Node),
      map_find m seg = none →
      assign_go m seg (next :: rest) v false =
        (m, some ("Path component " ++ seg ++ " does not exist. Use +" ++ seg ++
          "=... to introduce new nested parameters."))) ∧
    (∀ (m : NodeMap) (seg next : String) (rest : List String) (v : Node),
      map_find m seg = none →
      assign_go m seg (next :: rest) v true =
        (map_emplace m seg (.mapping (assign_go [] next rest v true).1), none)) ∧
    (assign_path (.mapping []) ["a", "b"] (.int 1) false =
       (.mapping [], some ("Path component a does not exist. " ++
         "Use +a=... to introduce new nested parameters.")) ∧
     assign_path (.mapping []) ["a", "b"] (.int 1) true =
       (.mapping [("a", .mapping [("b", .int 1)])], none) ∧
     find_path (.mapping [("a", .mapping [("b", .int 1)])]) ["a", "b"] =
       some (.int 1) ∧
     assign_path (.mapping [("a", .mapping [("b", .int 1)])])
       ["a", "b"] (.int 2) true =
       (.mapping [("a", .mapping [("b", .int 1)])],
        some "Cannot add new key b because it already exists") ∧
     assign_path (.mapping [("a", .mapping [("b", .int 1)])])
       ["a", "b"] (.int 2) false =
       (.mapping [("a", .mapping [("b", .int 2)])], none)) := by
  refine ⟨?_, ?_, ?_, ?_, ?_, ?_, ?_⟩
  · intro m seg v h; simp [assign_go, h]
  · intro m seg v h; simp [assign_go, h]
  · intro m seg v e h; simp [assign_go, h]
  · intro m seg v e h; simp [assign_go, h]
  · intro m seg next rest v h; simp [assign_go, h]
  · intro m seg next rest v h
    simp [assign_go, h, assign_go_fresh_ok]
  · exact ⟨rfl, rfl, rfl, rfl, rfl⟩

/-- Witness for C3 at concrete inputs: the four leaf combinations and
one intermediate case, evaluated on concrete maps. -/
theorem assign_path_semantics_witness :
    assign_go [] "k" [] (.int 5) true = (map_emplace [] "k" (.int 5), none) ∧
    assign_go [("k", .int 1)] "k" [] (.int 5) false =
      (map_set [("k", .int 1)] "k" (.int 5), none) ∧
    (assign_go [] "k" [] (.int 5) false).2 =
      some ("Key " ++ "k" ++ " does not exist. Use +" ++ "k" ++
        "=... to add new parameters.") ∧
    (assign_go [("k", .int 1)] "k" [] (.int 5) true).2 =
      some ("Cannot add new key " ++ "k" ++ " because it already exists") := by
  refine ⟨assign_path_semantics.1 [] "k" (.int 5) rfl,
    assign_path_semantics.2.2.1 [("k", .int 1)] "k" (.int 5) (.int 1) rfl,
    ?_, ?_⟩
  · rw [assign_path_semantics.2.1 [] "k" (.int 5) rfl]
  · rw [assign_path_semantics.2.2.2.1 [("k", .int 1)] "k" (.int 5) (.int 1) rfl]

/-- Claim C10: `assign_path` is atomic on failure up to null-root
promotion: when it reports an error the resulting tree is the input
tree, except that a null root assigned through a non-empty path has
become an empty mapping. -/
theorem assign_path_atomic_on_error (root : Node) (path : List String)
    (value : Node) (require_new : Bool) (e : String)
    (h : (assign_path root path value require_new).2 = some e) :
    (assign_path root path value require_new).1 = root ∨
      (root = .null ∧ (assign_path root path value require_new).1 = .mapping []) := by
  match path with
  | [] => cases root <;> simp [assign_path]
  | segment :: rest =>
    cases root with
    | mapping m =>
      left
      have h2 : (assign_go m segment rest value require_new).2 = some e := by
        simpa [assign_path] using h
      simp [assign_path, assign_go_error_id rest m segment value require_new e h2]
    | null =>
      right
      have h2 : (assign_go [] segment rest value require_new).2 = some e := by
        simpa [assign_path] using h
      simp [assign_path,
        assign_go_error_id rest [] segment value require_new e h2]
    | bool b => simp [assign_path]
    | int i => simp [assign_path]
    | double d => simp [assign_path]
    | string s => simp [assign_path]
    | sequence xs => simp [assign_path]

/-- Witness for C10: a failing deep assignment on a null root leaves
an empty mapping; the same call on a concrete mapping root leaves it
unchanged. -/
theorem assign_path_atomic_on_error_witness :
    (assign_path .null ["a", "b"] (.int 1) false).1 = .null ∨
      (Node.null = .null ∧
        (assign_path .null ["a", "b"] (.int 1) false).1 = .mapping []) := by
  exact assign_path_atomic_on_error .null ["a", "b"] (.int 1) false
    ("Path component " ++ "a" ++ " does not exist. Use +" ++ "a" ++
      "=... to introduce new nested parameters.") rfl

theorem map_emplace_keys (m : NodeMap) (k : String) (v : Node) :
    (map_emplace m k v).map Prod.fst =
      if k ∈ m.map Prod.fst then m.map Prod.fst else m.map Prod.fst ++ [k] := by
  induction m with
  | nil => simp [map_emplace]
  | cons hd tl ih =>
    obtain ⟨k0, v0⟩ := hd
    by_cases h0 : k0 = k
    · subst h0; simp [map_emplace]
    · have hne : ¬ k = k0 := fun he => h0 he.symm
      simp only [map_emplace, if_neg h0, List.map_cons, List.mem_cons, hne,
        false_or]
      rw [ih]
      by_cases hk : k ∈ tl.map Prod.fst <;> simp [hk]

theorem map_set_keys (m : NodeMap) (k : String) (v : Node) :
    (map_set m k v).map Prod.fst =
      if k ∈ m.map Prod.fst then m.map Prod.fst else m.map Prod.fst ++ [k] := by
  induction m with
  | nil => simp [map_set]
  | cons hd tl ih =>
    obtain ⟨k0, v0⟩ := hd
    by_cases h0 : k0 = k
    · subst h0; simp [map_set]
    · have hne : ¬ k = k0 := fun he => h0 he.symm
      simp only [map_set, if_neg h0, List.map_cons, List.mem_cons, hne,
        false_or]
      rw [ih]
      by_cases hk : k ∈ tl.map Prod.fst <;> simp [hk]

theorem map_emplace_nodup (m : NodeMap) (k : String) (v : Node)
    (h : (m.map Prod.fst).Nodup) : ((map_emplace m k v).map Prod.fst).Nodup := by
  rw [map_emplace_keys]
  by_cases hk : k ∈ m.map Prod.fst
  · simpa [hk] using h
  · simp only [hk, if_false]
    simp [List.nodup_append, h, hk]

theorem map_set_nodup (m : NodeMap) (k : String) (v : Node)
    (h : (m.map Prod.fst).Nodup) : ((map_set m k v).map Prod.fst).Nodup := by
  rw [map_set_keys]
  by_cases hk : k ∈ m.map Prod.fst
  · simpa [hk] using h
  · simp only [hk, if_false]
    simp [List.nodup_append, h, hk]

theorem parse_mapping_fold_find (events : List (String × Node)) (acc : NodeMap)
    (k : String) :
    map_find (events.foldl (fun mapping kv => map_emplace mapping kv.1 kv.2) acc) k =
      match map_find acc k with
      | some v => some v
      | none => (events.find? (fun kv => kv.1 == k)).map Prod.snd := by
  induction events generalizing acc with
  | nil => cases h : map_find acc k <;> simp [h]
  | cons hd tl ih =>
    obtain ⟨k0, v0⟩ := hd
    simp only [List.foldl_cons]
    rw [ih]
    by_cases h0 : k0 = k
    · subst h0
      rw [map_find_emplace_same]
      cases h : map_find acc k0 <;> simp [List.find?, h]
    · rw [map_find_emplace_other _ _ _ _ h0]
      have hbeq : (k0 == k) = false := by simp [h0]
      cases h : map_find acc k <;> simp [List.find?, h, hbeq]

theorem parse_mapping_entries_nodup (events : List (String × Node)) :
    ((parse_mapping_entries events).map Prod.fst).Nodup := by
  suffices h : ∀ acc : NodeMap, (acc.map Prod.fst).Nodup →
      ((events.foldl (fun mapping kv => map_emplace mapping kv.1 kv.2)
        acc).map Prod.fst).Nodup by
    exact h [] (by simp)
  induction events with
  | nil => intro acc h; simpa using h
  | cons hd tl ih => intro acc h; exact ih _ (map_emplace_nodup _ _ _ h)

/-- Counterexample to claim C9: parsing a source mapping that repeats
the key `a` (first `a: 1`, then `a: 2`) keeps the FIRST occurrence,
because `parse_mapping` inserts with `std::map::emplace`; the later
occurrence does not win. -/
theorem parse_mapping_duplicate_key_cex :
    map_find (parse_mapping_entries [("a", .int 1), ("a", .int 2)]) "a" =
      some (.int 1) ∧
    map_find (parse_mapping_entries [("a", .int 1), ("a", .int 2)]) "a" ≠
      some (.int 2) := by
  refine ⟨rfl, fun h => ?_⟩
  rw [show map_find (parse_mapping_entries [("a", .int 1), ("a", .int 2)]) "a" =
    some (.int 1) from rfl] at h
  injection Option.some.inj h with h2
  exact absurd h2 (by decide)

/-- Claim C9 (amended): mapping keys stay unique at every insert site
(`emplace`, iterator assignment, `parse_mapping`), and the leaf
update of `assign_path` overwrites the stored value; but a source
mapping that repeats a key keeps the FIRST occurrence — later
duplicates are discarded by `std::map::emplace`, so `map_find`
returns the first matching event. -/
theorem mapping_key_uniqueness :
    (∀ (m : NodeMap) (k : String) (v : Node), (m.map Prod.fst).Nodup →
      ((map_emplace m k v).map Prod.fst).Nodup) ∧
    (∀ (m : NodeMap) (k : String) (v : Node), (m.map Prod.fst).Nodup →
      ((map_set m k v).map Prod.fst).Nodup) ∧
    (∀ events : List (String × Node),
      ((parse_mapping_entries events).map Prod.fst).Nodup) ∧
    (∀ (events : List (String × Node)) (k : String),
      map_find (parse_mapping_entries events) k =
        (events.find? (fun kv => kv.1 == k)).map Prod.snd) ∧
    (∀ (m : NodeMap) (k : String) (v e : Node), map_find m k = some e →
      map_find ((assign_go m k [] v false).1) k = some v) := by
  refine ⟨map_emplace_nodup, map_set_nodup, parse_mapping_entries_nodup, ?_, ?_⟩
  · intro events k
    rw [parse_mapping_entries, parse_mapping_fold_find]
    simp [map_find]
  · intro m k v e h
    simp [assign_go, h, map_find_set_same]

/-- Witness for C9 (amended) at concrete inputs. -/
theorem mapping_key_uniqueness_witness :
    ((map_emplace [("a", .int 1)] "b" (.int 2)).map Prod.fst).Nodup ∧
    map_find ((assign_go [("k", .int 1)] "k" [] (.int 5) false).1) "k" =
      some (.int 5) := by
  exact ⟨mapping_key_uniqueness.1 [("a", .int 1)] "b" (.int 2) (by simp),
    mapping_key_uniqueness.2.2.2.2 [("k", .int 1)] "k" (.int 5) (.int 1) rfl⟩

/-- Claim C2 (the code violates it): the block emitter serializes the
single-scalar tree `string "true"` as the quoted scalar `"true"`, but
on re-parsing the tokenizer surfaces the raw text `true` and
`interpret_scalar` — which never consults the quoting style — returns
the boolean `true`, so `parse(serialize(t))` differs from `t` in its
variant.  This holds for every double formatter, every
`looks_like_number` predicate and every `std::stod` behaviour. -/
theorem serialize_reparse_changes_variant (fmt_double : Float → String)
    (looks_like_number : String → Bool) (stod : String → Option Float) :
    emit_node fmt_double looks_like_number (.string "true") 0 =
      .ok "\"true\"\n" ∧
    scalar_event_text "\"true\"" = "true" ∧
    reparse_scalar_document stod "\"true\"" = .bool true ∧
    Node.bool true ≠ Node.string "true" := by
  refine ⟨rfl, rfl, rfl, fun h => Node.noConfusion h⟩

/-- Scanning the escaped form of a component consumes it literally
into the current accumulator. -/
theorem split_escape_chars (cs rest : List Char) (current : List Char) :
    split_path_chars (escape_chars cs ++ rest) current false =
      split_path_chars rest (current ++ cs) false := by
  induction cs generalizing current with
  | nil => simp [escape_chars]
  | cons ch cs ih =>
    by_cases hs : ch = '.' ∨ ch = '\\'
    · rw [escape_chars, if_pos hs]
      show split_path_chars ('\\' :: ch :: (escape_chars cs ++ rest)) current false = _
      rw [split_path_chars]
      simp only [show (('\\' : Char) = '\\') = True by simp, if_true,
        Bool.false_eq_true, if_false]
      rw [split_path_chars]
      simp only [if_true, Bool.false_eq_true]
      rw [ih]
      simp
    · push_neg at hs
      rw [escape_chars, if_neg (by tauto)]
      show split_path_chars (ch :: (escape_chars cs ++ rest)) current false = _
      rw [split_path_chars]
      simp only [Bool.false_eq_true, if_false, if_neg hs.2, if_neg hs.1]
      rw [ih]
      simp

/-- Claim C7: for every non-empty path whose components are non-empty
strings (they may contain literal dots and backslashes), parsing the
rendered expression yields the path back:
`split_path_expression (build_path_expression p) = p`. -/
theorem path_round_trip (p : List String) (hne : p ≠ [])
    (hc : ∀ c ∈ p, c ≠ "") :
    split_path_expression (build_path_expression p) = .ok p := by
  induction p with
  | nil => exact absurd rfl hne
  | cons c rest ih =>
    have hcne : c.data ≠ [] := by
      intro h
      exact hc c (List.mem_cons_self c rest) (by
        cases c with
        | mk data => simp at h; simp [h])
    cases rest with
    | nil =>
      show split_path_chars (escape_path_segment c).data [] false = .ok [c]
      have : (escape_path_segment c).data = escape_chars c.data ++ [] := by
        simp [escape_path_segment]
      rw [this, split_escape_chars, split_path_chars]
      simp [hcne]
    | cons c2 rest2 =>
      have hrest := ih (by simp) (fun x hx => hc x (List.mem_cons_of_mem c hx))
      show split_path_chars
        (escape_path_segment c ++ "." ++ build_path_expression (c2 :: rest2)).data
        [] false = .ok (c :: c2 :: rest2)
      have hdata : (escape_path_segment c ++ "." ++
          build_path_expression (c2 :: rest2)).data =
          escape_chars c.data ++
            ('.' :: (build_path_expression (c2 :: rest2)).data) := by
        simp [escape_path_segment, String.data_append]
      rw [hdata, split_escape_chars]
      simp only [List.nil_append]
      rw [split_path_chars]
      simp only [Bool.false_eq_true, if_false,
        show (('.' : Char) = '\\') = False by simp,
        show (('.' : Char) = '.') = True by simp, if_true]
      rw [if_neg hcne, show split_path_chars
        (build_path_expression (c2 :: rest2)).data [] false =
          Except.ok (c2 :: rest2) from hrest]
      rfl

/-- Witness for C7: a path whose components contain literal dots and
backslashes survives the render/parse round trip. -/
theorem path_round_trip_witness :
    split_path_expression (build_path_expression ["a.b", "c\\d", "plain"]) =
      .ok ["a.b", "c\\d", "plain"] :=
  path_round_trip ["a.b", "c\\d", "plain"] (by simp) (by simp)

theorem deep_copy_eq : ∀ (n : Node), deep_copy n = n
  | .null => rfl
  | .bool _ => rfl
  | .int _ => rfl
  | .double _ => rfl
  | .string _ => rfl
  | .sequence xs => congrArg Node.sequence (deep_copy_seq_eq xs)
  | .mapping m => congrArg Node.mapping (deep_copy_map_eq m)
where
  deep_copy_seq_eq : ∀ (xs : List Node), deep_copy.seq xs = xs
    | [] => rfl
    | x :: xs => by rw [deep_copy.seq, deep_copy_eq x, deep_copy_seq_eq xs]
  deep_copy_map_eq : ∀ (m : NodeMap), deep_copy.map m = m
    | [] => rfl
    | (k, v) :: rest => by rw [deep_copy.map, deep_copy_eq v, deep_copy_map_eq rest]

theorem except_pure_eq_ok {ε α : Type} (x : α) :
    (pure x : Except ε α) = Except.ok x := rfl

theorem except_bind_ok {ε α β : Type} (x : α) (f : α → Except ε β) :
    (Except.ok x >>= f : Except ε β) = f x := rfl

theorem except_bind_error {ε α β : Type} (e : ε) (f : α → Except ε β) :
    (Except.error e >>= f : Except ε β) = Except.error e := rfl

theorem except_map_ok {ε α β : Type} (f : α → β) (x : α) :
    (f <$> (Except.ok x : Except ε α)) = Except.ok (f x) := rfl

theorem except_map_error {ε α β : Type} (f : α → β) (e : ε) :
    (f <$> (Except.error e : Except ε α)) = Except.error e := rfl

theorem dropWhile_cspace_id (l : List Char)
    (h : ∀ c ∈ l, is_cspace c = false) : l.dropWhile is_cspace = l := by
  cases l with
  | nil => rfl
  | cons c rest =>
    rw [List.dropWhile_cons, if_neg]
    simp [h c (List.mem_cons_self c rest)]

theorem trim_copy_id (s : String) (h : ∀ c ∈ s.data, is_cspace c = false) :
    trim_copy s = s := by
  rw [trim_copy, dropWhile_cspace_id _ h, dropWhile_cspace_id, List.reverse_reverse]
  intro c hc
  exact h c (List.mem_reverse.mp hc)

theorem split_first_comma_no_comma (cs : List Char)
    (h : ∀ c ∈ cs, c ≠ ',') : split_first_comma cs = (cs, none) := by
  induction cs with
  | nil => rfl
  | cons c rest ih =>
    have hc : c ≠ ',' := h c (List.mem_cons_self c rest)
    simp [split_first_comma, hc,
      ih (fun x hx => h x (List.mem_cons_of_mem c hx))]

theorem split_first_comma_append (name fb : List Char)
    (h : ∀ c ∈ name, c ≠ ',') :
    split_first_comma (name ++ ',' :: fb) = (name, some fb) := by
  induction name with
  | nil => rfl
  | cons c rest ih =>
    have hc : c ≠ ',' := h c (List.mem_cons_self c rest)
    simp [split_first_comma, hc,
      ih (fun x hx => h x (List.mem_cons_of_mem c hx))]

theorem string_mk_data (s : String) : String.mk s.data = s := rfl

theorem except_mapf_ok {ε α β : Type} (f : α → β) (x : α) :
    Except.map f (Except.ok x : Except ε α) = Except.ok (f x) := rfl

theorem except_mapf_error {ε α β : Type} (f : α → β) (e : ε) :
    Except.map f (Except.error e : Except ε α) = Except.error e := rfl

/-- Counterexample to claim C8: the fallback of an `oc.env:`
placeholder is handed to `resolve_string`, i.e. treated as
interpolation CONTENT, not as an expression: with the variable unset,
`${oc.env:MISSING_VAR,now:%Y}` evaluates to the literal text
`now:%Y` (here with a clock that renders `%Y` as `2026`, which the
claim would require as the result), and a bare-reference fallback
`b` evaluates to the literal `b`, not to the value stored at path
`b`. -/
theorem env_fallback_is_content_cex :
    resolve_string ⟨fun _ => "2026", fun _ => ""⟩ [] 6 ⟨.null, [], []⟩ []
      "$\x7boc.env:MISSING_VAR,now:%Y\x7d".data =
      .ok ("now:%Y", ⟨.null, [], []⟩) ∧
    ("now:%Y" : String) ≠ "2026" ∧
    resolve_string ⟨fun _ => "2026", fun _ => ""⟩ [] 6
      ⟨.mapping [("b", .string "x")], [], []⟩ []
      "$\x7boc.env:MISSING_VAR,b\x7d".data =
      .ok ("b", ⟨.mapping [("b", .string "x")], [], []⟩) ∧
    ("b" : String) ≠ "x" := by
  refine ⟨?_, by decide, ?_, by decide⟩
  · simp [resolve_string, resolve_expression, resolve_env_expression,
      find_dollar_brace, find_close_brace, starts_with, split_first_comma,
      trim_copy, is_cspace, env_find, except_bind_ok, except_pure_eq_ok]
    rfl
  · simp [resolve_string, resolve_expression, resolve_env_expression,
      find_dollar_brace, find_close_brace, starts_with, split_first_comma,
      trim_copy, is_cspace, env_find, except_bind_ok, except_pure_eq_ok]
    rfl

/-- Claim C8 (amended): an `oc.env:NAME[,fallback]` placeholder takes
the raw value of a set, non-empty variable; when the variable is
unset or empty, a given fallback is resolved as interpolation
CONTENT at the same path (its own `${...}` placeholders would be
substituted, but plain fallback text — including what looks like a
reference or a `now:` expression — is returned literally), and
without a fallback the result is the empty string.  In particular
`${oc.env:MISSING_VAR,fallback}` with the variable unset yields
`fallback`. -/
theorem env_expression_semantics :
    (∀ (ext : Extern) (env : Env) (fuel : Nat) (s : RState)
       (path : List String) (name value : String),
       (∀ c ∈ name.data, is_cspace c = false ∧ c ≠ ',') →
       env_find env name = some value → value ≠ "" →
       resolve_env_expression ext env (fuel + 1) s path name = pure (value, s)) ∧
    (∀ (ext : Extern) (env : Env) (fuel : Nat) (s : RState)
       (path : List String) (name : String),
       (∀ c ∈ name.data, is_cspace c = false ∧ c ≠ ',') →
       env_find env name = none →
       resolve_env_expression ext env (fuel + 1) s path name = pure ("", s)) ∧
    (∀ (ext : Extern) (env : Env) (fuel : Nat) (s : RState)
       (path : List String) (name fb : String),
       (∀ c ∈ name.data, is_cspace c = false ∧ c ≠ ',') →
       (∀ c ∈ fb.data, is_cspace c = false) → fb ≠ "" →
       (env_find env name = none ∨ env_find env name = some "") →
       resolve_env_expression ext env (fuel + 1) s path (name ++ "," ++ fb) =
         resolve_string ext env fuel s path fb.data) ∧
    (∀ (ext : Extern) (s : RState) (path : List String),
       resolve_string ext [] 6 s path
         "$\x7boc.env:MISSING_VAR,fallback\x7d".data = .ok ("fallback", s)) ∧
    (∀ (ext : Extern) (s : RState) (path : List String),
       resolve_string ext [] 6 s path
         "$\x7boc.env:MISSING_VAR,now:%Y\x7d".data = .ok ("now:%Y", s)) := by
  have hsplit : ∀ (name : String), (∀ c ∈ name.data, is_cspace c = false ∧ c ≠ ',') →
      split_first_comma name.data = (name.data, none) :=
    fun name h => split_first_comma_no_comma _ (fun c hc => (h c hc).2)
  have htrim : ∀ (name : String), (∀ c ∈ name.data, is_cspace c = false ∧ c ≠ ',') →
      trim_copy name = name :=
    fun name h => trim_copy_id _ (fun c hc => (h c hc).1)
  refine ⟨?_, ?_, ?_, ?_, ?_⟩
  · intro ext env fuel s path name value hname hfind hvne
    simp [resolve_env_expression, hsplit name hname, htrim name hname,
      hfind, hvne]
  · intro ext env fuel s path name hname hfind
    simp [resolve_env_expression, hsplit name hname, htrim name hname, hfind]
  · intro ext env fuel s path name fb hname hfb hfbne hfind
    have hsplit2 : split_first_comma (name.data ++ ',' :: fb.data) =
        (name.data, some fb.data) :=
      split_first_comma_append _ _ (fun c hc => (hname c hc).2)
    have htrimfb : trim_copy fb = fb := trim_copy_id fb hfb
    rcases hfind with hfind | hfind <;>
      simp [resolve_env_expression, hsplit2, string_mk_data,
        htrim name hname, htrimfb, hfind, hfbne]
  · intro ext s path
    simp [resolve_string, resolve_expression, resolve_env_expression,
      find_dollar_brace, find_close_brace, starts_with, split_first_comma,
      trim_copy, is_cspace, env_find, except_bind_ok, except_pure_eq_ok]
    rfl
  · intro ext s path
    simp [resolve_string, resolve_expression, resolve_env_expression,
      find_dollar_brace, find_close_brace, starts_with, split_first_comma,
      trim_copy, is_cspace, env_find, except_bind_ok, except_pure_eq_ok]
    rfl

theorem resolve_node_resolved_noop (ext : Extern) (env : Env) (fuel : Nat)
    (s : RState) (path : List String) (h : join_path path ∈ s.resolved) :
    resolve_node ext env (fuel + 1) s path = pure s := by
  simp [resolve_node, h]

set_option maxHeartbeats 1200000 in
/-- Claim C5: re-entry on a resolved node is a no-op (each node is
fully resolved at most once); a self-reference `a: "${a}"` raises a
cycle error naming the path; and in the tree
`{a: "${b}", b: "x", c: "${a}/${b}"}` the pass yields
`{a: "x", b: "x", c: "x/x"}` — node `a`, visited before `b`, already
observes `b`'s final value because reference resolution recursively
resolves the target before reading it, and `c` observes the final
`a`. -/
theorem interpolation_resolution_semantics :
    (∀ (ext : Extern) (env : Env) (fuel : Nat) (s : RState) (path : List String),
      join_path path ∈ s.resolved →
      resolve_node ext env (fuel + 1) s path = pure s) ∧
    (∀ (ext : Extern) (env : Env),
      resolve_interpolations ext env 12
        (.mapping [("a", .string "$\x7ba\x7d")]) =
        .error (.err "Detected interpolation cycle involving a")) ∧
    (∀ (ext : Extern) (env : Env),
      resolve_interpolations ext env 12
        (.mapping [("a", .string "$\x7bb\x7d"), ("b", .string "x"),
                   ("c", .string "$\x7ba\x7d/$\x7bb\x7d")]) =
        .ok (.mapping [("a", .string "x"), ("b", .string "x"),
                       ("c", .string "x/x")])) := by
  refine ⟨resolve_node_resolved_noop, ?_, ?_⟩
  · intro ext env
    simp [resolve_interpolations, resolve_node, resolve_children,
      resolve_seq_children, resolve_string, resolve_expression,
      resolve_env_expression, join_path, join_path_chars, starts_with,
      get_at, set_at, map_find, map_set, find_dollar_brace,
      find_close_brace, split_path_expression, split_path_chars, find_path,
      node_to_string, set_erase, env_find, trim_copy, is_cspace,
      split_first_comma, except_bind_ok, except_bind_error, except_map_ok,
      except_map_error, except_pure_eq_ok, except_mapf_ok, except_mapf_error]
  · intro ext env
    have hb : resolve_node ext env 7
        ⟨.mapping [("a", .string "$\x7bb\x7d"), ("b", .string "x"),
                   ("c", .string "$\x7ba\x7d/$\x7bb\x7d")],
         ["a", "<root>"], []⟩ ["b"] =
        .ok ⟨.mapping [("a", .string "$\x7bb\x7d"), ("b", .string "x"),
                       ("c", .string "$\x7ba\x7d/$\x7bb\x7d")],
             ["a", "<root>"], ["b"]⟩ := by
      simp [resolve_node, resolve_children, resolve_seq_children,
        resolve_string, resolve_expression, resolve_env_expression,
        join_path, join_path_chars, starts_with, get_at, set_at, map_find,
        map_set, find_dollar_brace, find_close_brace, split_path_expression,
        split_path_chars, find_path, node_to_string, set_erase, env_find,
        trim_copy, is_cspace, split_first_comma, except_bind_ok,
        except_bind_error, except_map_ok, except_map_error,
        except_pure_eq_ok, except_mapf_ok, except_mapf_error]
    have ha : resolve_node ext env 10
        ⟨.mapping [("a", .string "$\x7bb\x7d"), ("b", .string "x"),
                   ("c", .string "$\x7ba\x7d/$\x7bb\x7d")],
         ["<root>"], []⟩ ["a"] =
        .ok ⟨.mapping [("a", .string "x"), ("b", .string "x"),
                       ("c", .string "$\x7ba\x7d/$\x7bb\x7d")],
             ["<root>"], ["a", "b"]⟩ := by
      simp [resolve_node, resolve_children, resolve_seq_children,
        resolve_string, resolve_expression, resolve_env_expression,
        join_path, join_path_chars, starts_with, get_at, set_at, map_find,
        map_set, find_dollar_brace, find_close_brace, split_path_expression,
        split_path_chars, find_path, node_to_string, set_erase, env_find,
        trim_copy, is_cspace, split_first_comma, except_bind_ok,
        except_bind_error, except_map_ok, except_map_error,
        except_pure_eq_ok, except_mapf_ok, except_mapf_error, hb]
    have hc : resolve_node ext env 8
        ⟨.mapping [("a", .string "x"), ("b", .string "x"),
                   ("c", .string "$\x7ba\x7d/$\x7bb\x7d")],
         ["<root>"], ["a", "b"]⟩ ["c"] =
        .ok ⟨.mapping [("a", .string "x"), ("b", .string "x"),
                       ("c", .string "x/x")],
             ["<root>"], ["c", "a", "b"]⟩ := by
      simp [resolve_node, resolve_children, resolve_seq_children,
        resolve_string, resolve_expression, resolve_env_expression,
        join_path, join_path_chars, starts_with, get_at, set_at, map_find,
        map_set, find_dollar_brace, find_close_brace, split_path_expression,
        split_path_chars, find_path, node_to_string, set_erase, env_find,
        trim_copy, is_cspace, split_first_comma, except_bind_ok,
        except_bind_error, except_map_ok, except_map_error,
        except_pure_eq_ok, except_mapf_ok, except_mapf_error]
    have hbnoop : resolve_node ext env 9
        ⟨.mapping [("a", .string "x"), ("b", .string "x"),
                   ("c", .string "$\x7ba\x7d/$\x7bb\x7d")],
         ["<root>"], ["a", "b"]⟩ ["b"] =
        pure ⟨.mapping [("a", .string "x"), ("b", .string "x"),
                        ("c", .string "$\x7ba\x7d/$\x7bb\x7d")],
              ["<root>"], ["a", "b"]⟩ :=
      resolve_node_resolved_noop ext env 8 _ _ (by
        simp [join_path, join_path_chars])
    have hchildren : resolve_children ext env 11
        ⟨.mapping [("a", .string "$\x7bb\x7d"), ("b", .string "x"),
                   ("c", .string "$\x7ba\x7d/$\x7bb\x7d")],
         ["<root>"], []⟩ [] ["a", "b", "c"] =
        .ok ⟨.mapping [("a", .string "x"), ("b", .string "x"),
                       ("c", .string "x/x")],
             ["<root>"], ["c", "a", "b"]⟩ := by
      simp [resolve_children, ha, hbnoop, hc, except_bind_ok,
        except_bind_error, except_pure_eq_ok]
    simp [resolve_interpolations, resolve_node, join_path, join_path_chars,
      get_at, map_find, set_erase, hchildren, except_bind_ok,
      except_bind_error, except_map_ok, except_map_error,
      except_pure_eq_ok, except_mapf_ok, except_mapf_error]

/-- Witness for C5: the no-op conjunct applied at a state that has
already resolved the root. -/
theorem interpolation_resolution_semantics_witness :
    resolve_node ⟨fun _ => "", fun _ => ""⟩ [] 1
      ⟨.null, [], ["<root>"]⟩ [] = pure ⟨.null, [], ["<root>"]⟩ :=
  interpolation_resolution_semantics.1 ⟨fun _ => "", fun _ => ""⟩ [] 0
    ⟨.null, [], ["<root>"]⟩ [] (by simp [join_path])

/-- Claim C4: a `{group: name}` defaults entry is loaded and placed
under the `group` path in the accumulator rather than merged at the
root — merged recursively into an existing node, inserted otherwise;
consequently a root `defaults: [{db: postgres}]` with its own
`trainer.batch_size: 16`, where `db/postgres.yaml` sets
`host: localhost`, composes to a tree with `db.host == "localhost"`
and `trainer.batch_size == 16`. -/
theorem composition_group_placement :
    (∀ (acc : Node) (target : List String) (child existing : Node),
      find_path acc target = some existing →
      place_group_result acc target child =
        .ok (set_at acc target (merge existing child))) ∧
    (∀ (acc : Node) (target : List String) (child : Node),
      find_path acc target = none →
      (assign_path acc target child true).2 = none →
      place_group_result acc target child =
        .ok ((assign_path acc target child true).1)) ∧
    (load_yaml_file
        [("/cfg/main.yaml", .mapping
            [("defaults", .sequence [.mapping [("db", .string "postgres")]]),
             ("trainer", .mapping [("batch_size", .int 16)])]),
         ("/cfg/db/postgres.yaml", .mapping [("host", .string "localhost")])]
        5 "/cfg/main.yaml" =
      .ok (.mapping [("db", .mapping [("host", .string "localhost")]),
                     ("trainer", .mapping [("batch_size", .int 16)])]) ∧
     find_path (.mapping [("db", .mapping [("host", .string "localhost")]),
                          ("trainer", .mapping [("batch_size", .int 16)])])
       ["db", "host"] = some (.string "localhost") ∧
     find_path (.mapping [("db", .mapping [("host", .string "localhost")]),
                          ("trainer", .mapping [("batch_size", .int 16)])])
       ["trainer", "batch_size"] = some (.int 16)) := by
  refine ⟨?_, ?_, ?_, rfl, rfl⟩
  · intro acc target child existing h
    simp [place_group_result, h, except_pure_eq_ok]
  · intro acc target child h hok
    simp [place_group_result, h, hok, except_pure_eq_ok]
  · have hparse : parse_default_entry (.mapping [("db", .string "postgres")])
        "/cfg" = .ok ⟨"/cfg/db/postgres.yaml", some ["db"], false⟩ := rfl
    have hparent : parent_path "/cfg/main.yaml" = "/cfg" := rfl
    have hpg : load_with_includes
        [("/cfg/main.yaml", .mapping
            [("defaults", .sequence [.mapping [("db", .string "postgres")]]),
             ("trainer", .mapping [("batch_size", .int 16)])]),
         ("/cfg/db/postgres.yaml", .mapping [("host", .string "localhost")])]
        3 "/cfg/db/postgres.yaml" ["/cfg/main.yaml"] =
        .ok (.mapping [("host", .string "localhost")]) := by
      simp [load_with_includes, normalize_path, fs_find, map_find,
        map_erase, merge, merge.merge_maps, map_emplace, deep_copy,
        deep_copy.seq, deep_copy.map, except_bind_ok, except_bind_error,
        except_pure_eq_ok]
    have hld : load_defaults
        [("/cfg/main.yaml", .mapping
            [("defaults", .sequence [.mapping [("db", .string "postgres")]]),
             ("trainer", .mapping [("batch_size", .int 16)])]),
         ("/cfg/db/postgres.yaml", .mapping [("host", .string "localhost")])]
        4 ["/cfg/main.yaml"] "/cfg"
        [.mapping [("db", .string "postgres")]] (.mapping []) =
        .ok (.mapping [("db", .mapping [("host", .string "localhost")])]) := by
      simp [load_defaults, hparse, hpg, is_self_marker, fs_find,
        place_group_result, find_path, assign_path, assign_go, map_find,
        map_emplace, except_bind_ok, except_bind_error, except_pure_eq_ok]
    simp [load_yaml_file, load_with_includes, normalize_path, fs_find,
      map_find, map_erase, hparent, hld, merge, merge.merge_maps,
      map_emplace, map_set, deep_copy, deep_copy.seq, deep_copy.map,
      except_bind_ok, except_bind_error, except_pure_eq_ok,
      except_mapf_ok, except_mapf_error]

/-- Witness for C4: the merge-into-existing and insert-when-absent
branches at concrete accumulators. -/
theorem composition_group_placement_witness :
    place_group_result (.mapping [("db", .mapping [("port", .int 5432)])])
      ["db"] (.mapping [("host", .string "localhost")]) =
      .ok (set_at (.mapping [("db", .mapping [("port", .int 5432)])]) ["db"]
        (merge (.mapping [("port", .int 5432)])
          (.mapping [("host", .string "localhost")]))) ∧
    place_group_result (.mapping []) ["db"]
      (.mapping [("host", .string "localhost")]) =
      .ok ((assign_path (.mapping []) ["db"]
        (.mapping [("host", .string "localhost")]) true).1) := by
  exact ⟨composition_group_placement.1 _ ["db"] _ _ rfl,
    composition_group_placement.2.1 _ ["db"] _ rfl rfl⟩

theorem place_group_result_ne_fuel (acc : Node) (target : List String)
    (child : Node) : place_group_result acc target child ≠ .error .fuel := by
  rw [place_group_result]
  cases hf : find_path acc target with
  | none =>
    cases ha : (assign_path acc target child true).2 with
    | none => simp [ha, except_pure_eq_ok]
    | some e => simp [ha]
  | some existing => simp [except_pure_eq_ok]

theorem fs_find_some_mem (fs : FileSys) (p : String) (n : Node)
    (h : fs_find fs p = some n) : p ∈ fs.map Prod.fst := by
  induction fs with
  | nil => simp [fs_find] at h
  | cons hd tl ih =>
    obtain ⟨p0, n0⟩ := hd
    by_cases h0 : p0 = p
    · simp [h0]
    · simp only [fs_find, if_neg h0] at h
      simp [ih h]

/-- Pushing a name onto a stack can only shrink the not-yet-visited
filter. -/
theorem filter_push_le (rest : List String) (stack : List String) (n : String) :
    (rest.filter (fun p => decide (p ∉ (n :: stack)))).length ≤
      (rest.filter (fun p => decide (p ∉ stack))).length := by
  induction rest with
  | nil => simp
  | cons r rs ih =>
    simp only [List.filter_cons]
    by_cases hr : r ∈ n :: stack
    · rw [if_neg (by simp [hr])]
      by_cases hr2 : r ∈ stack
      · rw [if_neg (by simp [hr2])]
        exact ih
      · rw [if_pos (by simp [hr2])]
        exact Nat.le_succ_of_le ih
    · have hr2 : r ∉ stack := fun h => hr (List.mem_cons_of_mem _ h)
      rw [if_pos (by simp [hr]), if_pos (by simp [hr2])]
      simpa using ih

theorem filter_push_lt (keys : List String) (stack : List String) (n : String)
    (hk : n ∈ keys) (hn : n ∉ stack) :
    (keys.filter (fun p => decide (p ∉ (n :: stack)))).length <
      (keys.filter (fun p => decide (p ∉ stack))).length := by
  induction keys with
  | nil => simp at hk
  | cons k rest ih =>
    rcases eq_or_ne k n with rfl | hkn
    · simp only [List.filter_cons]
      rw [if_neg (by simp), if_pos (by simp [hn])]
      exact Nat.lt_succ_of_le (filter_push_le rest stack k)
    · have hrest : n ∈ rest := by
        rcases List.mem_cons.mp hk with h1 | h1
        · exact absurd h1.symm hkn
        · exact h1
      simp only [List.filter_cons]
      by_cases hks : k ∈ stack
      · rw [if_neg (by simp [hks]), if_neg (by simp [hks])]
        exact ih hrest
      · have hkns : k ∉ n :: stack := by
          intro h
          rcases List.mem_cons.mp h with h1 | h1
          · exact hkn h1
          · exact hks h1
        rw [if_pos (by simp [hkns]), if_pos (by simp [hks])]
        exact Nat.succ_lt_succ (ih hrest)

theorem fs_avail_push_lt (fs : FileSys) (stack : List String) (n : String)
    (hk : n ∈ fs.map Prod.fst) (hn : n ∉ stack) :
    fs_avail fs (n :: stack) < fs_avail fs stack :=
  filter_push_lt (fs.map Prod.fst) stack n hk hn

/-- Fuel monotonicity of the include loader: once the budget is
sufficient (no `.fuel` result), more budget does not change the
result. -/
theorem comp_mono (fs : FileSys) : ∀ (fuel : Nat),
    (∀ (fuel2 : Nat), fuel ≤ fuel2 → ∀ (path : String) (stack : List String),
      load_with_includes fs fuel path stack ≠ .error .fuel →
      load_with_includes fs fuel2 path stack =
        load_with_includes fs fuel path stack) ∧
    (∀ (fuel2 : Nat), fuel ≤ fuel2 → ∀ (stack : List String) (base : String)
      (entries : List Node) (acc : Node),
      load_defaults fs fuel stack base entries acc ≠ .error .fuel →
      load_defaults fs fuel2 stack base entries acc =
        load_defaults fs fuel stack base entries acc) := by
  intro fuel
  induction fuel with
  | zero =>
    constructor
    · intro fuel2 hle path stack hne
      exact absurd (by simp [load_with_includes]) hne
    · intro fuel2 hle stack base entries acc hne
      exact absurd (by simp [load_defaults]) hne
  | succ fuel ih =>
    constructor
    · intro fuel2 hle path stack hne
      obtain ⟨f2, rfl⟩ : ∃ f2, fuel2 = f2 + 1 := ⟨fuel2 - 1, by omega⟩
      have hle2 : fuel ≤ f2 := by omega
      simp only [load_with_includes] at hne ⊢
      by_cases hmem : normalize_path path ∈ stack
      · simp [hmem]
      · simp only [if_neg hmem] at hne ⊢
        cases hfind : fs_find fs (normalize_path path) with
        | none => simp [hfind]
        | some root =>
          simp only [hfind] at hne ⊢
          cases root with
          | mapping m =>
            cases hdef : map_find m "defaults" with
            | none => simp [hdef]
            | some dn =>
              cases dn with
              | sequence defaults =>
                simp only [hdef] at hne ⊢
                cases hld : load_defaults fs fuel (normalize_path path :: stack)
                    (parent_path (normalize_path path)) defaults (.mapping []) with
                | error e =>
                  cases e with
                  | fuel =>
                    rw [hld] at hne
                    simp [except_bind_error] at hne
                  | err msg =>
                    have heq := ih.2 f2 hle2 (normalize_path path :: stack)
                      (parent_path (normalize_path path)) defaults (.mapping [])
                      (by rw [hld]; simp)
                    rw [heq, hld]
                | ok acc2 =>
                  have heq := ih.2 f2 hle2 (normalize_path path :: stack)
                    (parent_path (normalize_path path)) defaults (.mapping [])
                    (by rw [hld]; simp)
                  rw [heq, hld]
              | null => simp [hdef]
              | bool b => simp [hdef]
              | int i => simp [hdef]
              | double d => simp [hdef]
              | string str => simp [hdef]
              | mapping mm => simp [hdef]
          | null => simp
          | bool b => simp
          | int i => simp
          | double d => simp
          | string str => simp
          | sequence xs => simp
    · intro fuel2 hle stack base entries acc hne
      obtain ⟨f2, rfl⟩ : ∃ f2, fuel2 = f2 + 1 := ⟨fuel2 - 1, by omega⟩
      have hle2 : fuel ≤ f2 := by omega
      cases entries with
      | nil => simp [load_defaults]
      | cons entry rest =>
        simp only [load_defaults] at hne ⊢
        by_cases hself : is_self_marker entry = true
        · simp only [if_pos hself] at hne ⊢
          exact ih.2 f2 hle2 _ _ _ _ hne
        · simp only [if_neg hself] at hne ⊢
          cases hparse : parse_default_entry entry base with
          | error e => simp [hparse, except_bind_error]
          | ok spec =>
            simp only [hparse, except_pure_eq_ok, except_bind_ok] at hne ⊢
            by_cases hexists : (fs_find fs spec.include_path).isSome = false
            · simp only [if_pos hexists] at hne ⊢
              by_cases hopt : spec.optional = true
              · simp only [if_pos hopt] at hne ⊢
                exact ih.2 f2 hle2 _ _ _ _ hne
              · simp only [if_neg hopt]
            · simp only [if_neg hexists] at hne ⊢
              cases hchild : load_with_includes fs fuel spec.include_path stack with
              | error e =>
                cases e with
                | fuel =>
                  rw [hchild] at hne
                  simp [except_bind_error] at hne
                | err msg =>
                  have heq := ih.1 f2 hle2 spec.include_path stack
                    (by rw [hchild]; simp)
                  rw [heq, hchild]
                  simp only [except_bind_error]
              | ok child =>
                have heq := ih.1 f2 hle2 spec.include_path stack
                  (by rw [hchild]; simp)
                rw [hchild] at hne
                rw [heq, hchild]
                simp only [except_bind_ok] at hne ⊢
                cases htp : spec.target_path with
                | none =>
                  simp only [htp] at hne ⊢
                  exact ih.2 f2 hle2 _ _ _ _ hne
                | some target =>
                  simp only [htp] at hne ⊢
                  cases hplace : place_group_result acc target child with
                  | error e => simp only [except_bind_error]
                  | ok acc2 =>
                    rw [hplace] at hne
                    simp only [except_bind_ok] at hne ⊢
                    exact ih.2 f2 hle2 _ _ _ _ hne

/-- Termination of the include loader: on every input some finite
recursion budget suffices, because each descent pushes a fresh
filesystem entry onto the visiting stack. -/
theorem comp_terminates (fs : FileSys) : ∀ (n : Nat),
    (∀ (path : String) (stack : List String), fs_avail fs stack ≤ n →
      ∃ fuel, load_with_includes fs fuel path stack ≠ .error .fuel) ∧
    (∀ (stack : List String) (base : String) (entries : List Node) (acc : Node),
      fs_avail fs stack ≤ n →
      ∃ fuel, load_defaults fs fuel stack base entries acc ≠ .error .fuel) := by
  intro n
  induction n using Nat.strong_induction_on with
  | _ n ih =>
  have hA : ∀ (path : String) (stack : List String), fs_avail fs stack ≤ n →
      ∃ fuel, load_with_includes fs fuel path stack ≠ .error .fuel := by
    intro path stack hav
    by_cases hmem : normalize_path path ∈ stack
    · exact ⟨1, by simp [load_with_includes, hmem]⟩
    · cases hfind : fs_find fs (normalize_path path) with
      | none => exact ⟨1, by simp [load_with_includes, hmem, hfind, except_pure_eq_ok]⟩
      | some root =>
        cases root with
        | mapping m =>
          cases hdef : map_find m "defaults" with
          | none =>
            exact ⟨1, by simp [load_with_includes, hmem, hfind, hdef,
              except_bind_ok, except_pure_eq_ok]⟩
          | some dn =>
            cases dn with
            | sequence defaults =>
              have hmem2 : normalize_path path ∈ fs.map Prod.fst :=
                fs_find_some_mem _ _ _ hfind
              have hlt : fs_avail fs (normalize_path path :: stack) <
                  fs_avail fs stack := fs_avail_push_lt fs stack _ hmem2 hmem
              obtain ⟨F, hF⟩ := (ih (n - 1) (by omega)).2
                (normalize_path path :: stack)
                (parent_path (normalize_path path)) defaults (.mapping [])
                (by omega)
              refine ⟨F + 1, ?_⟩
              simp only [load_with_includes, if_neg hmem, hfind, hdef]
              cases hld : load_defaults fs F (normalize_path path :: stack)
                  (parent_path (normalize_path path)) defaults (.mapping []) with
              | error e =>
                cases e with
                | fuel => exact absurd hld hF
                | err msg => simp [except_bind_error]
              | ok acc2 => simp [except_bind_ok, except_pure_eq_ok]
            | null => exact ⟨1, by simp [load_with_includes, hmem, hfind, hdef]⟩
            | bool b => exact ⟨1, by simp [load_with_includes, hmem, hfind, hdef]⟩
            | int i => exact ⟨1, by simp [load_with_includes, hmem, hfind, hdef]⟩
            | double d => exact ⟨1, by simp [load_with_includes, hmem, hfind, hdef]⟩
            | string str => exact ⟨1, by simp [load_with_includes, hmem, hfind, hdef]⟩
            | mapping mm => exact ⟨1, by simp [load_with_includes, hmem, hfind, hdef]⟩
        | null => exact ⟨1, by simp [load_with_includes, hmem, hfind, except_pure_eq_ok]⟩
        | bool b => exact ⟨1, by simp [load_with_includes, hmem, hfind, except_pure_eq_ok]⟩
        | int i => exact ⟨1, by simp [load_with_includes, hmem, hfind, except_pure_eq_ok]⟩
        | double d => exact ⟨1, by simp [load_with_includes, hmem, hfind, except_pure_eq_ok]⟩
        | string str => exact ⟨1, by simp [load_with_includes, hmem, hfind, except_pure_eq_ok]⟩
        | sequence xs => exact ⟨1, by simp [load_with_includes, hmem, hfind, except_pure_eq_ok]⟩
  have hB : ∀ (stack : List String) (base : String) (entries : List Node)
      (acc : Node), fs_avail fs stack ≤ n →
      ∃ fuel, load_defaults fs fuel stack base entries acc ≠ .error .fuel := by
    intro stack base entries acc hav
    induction entries generalizing acc with
    | nil => exact ⟨1, by simp [load_defaults, except_pure_eq_ok]⟩
    | cons entry rest ihe =>
      by_cases hself : is_self_marker entry = true
      · obtain ⟨F, hF⟩ := ihe acc
        refine ⟨F + 1, ?_⟩
        simp only [load_defaults, if_pos hself]
        exact hF
      · cases hparse : parse_default_entry entry base with
        | error e =>
          exact ⟨1, by simp [load_defaults, hself, hparse, except_bind_error]⟩
        | ok spec =>
          by_cases hex : (fs_find fs spec.include_path).isSome = false
          · by_cases hopt : spec.optional = true
            · obtain ⟨F, hF⟩ := ihe acc
              refine ⟨F + 1, ?_⟩
              simp only [load_defaults, if_neg hself, hparse,
                except_pure_eq_ok, except_bind_ok, if_pos hex, if_pos hopt]
              exact hF
            · refine ⟨1, ?_⟩
              simp only [load_defaults, if_neg hself, hparse,
                except_pure_eq_ok, except_bind_ok, if_pos hex, if_neg hopt]
              simp
          · obtain ⟨F1, hF1⟩ := hA spec.include_path stack hav
            cases hchild : load_with_includes fs F1 spec.include_path stack with
            | error e =>
              cases e with
              | fuel => exact absurd hchild hF1
              | err msg =>
                refine ⟨F1 + 1, ?_⟩
                simp only [load_defaults, if_neg hself, hparse,
                  except_pure_eq_ok, except_bind_ok, if_neg hex]
                rw [hchild]
                simp [except_bind_error]
            | ok child =>
              cases htp : spec.target_path with
              | none =>
                obtain ⟨F2, hF2⟩ := ihe (merge acc child)
                refine ⟨max F1 F2 + 1, ?_⟩
                simp only [load_defaults, if_neg hself, hparse,
                  except_pure_eq_ok, except_bind_ok, if_neg hex, htp]
                rw [(comp_mono fs F1).1 (max F1 F2) (le_max_left _ _) _ _
                  (by rw [hchild]; simp), hchild]
                simp only [except_bind_ok]
                rw [(comp_mono fs F2).2 (max F1 F2) (le_max_right _ _) _ _ _ _ hF2]
                exact hF2
              | some target =>
                cases hplace : place_group_result acc target child with
                | error e =>
                  cases e with
                  | fuel =>
                    exact absurd hplace (place_group_result_ne_fuel acc target child)
                  | err msg =>
                    refine ⟨F1 + 1, ?_⟩
                    simp only [load_defaults, if_neg hself, hparse,
                      except_pure_eq_ok, except_bind_ok, if_neg hex, htp]
                    rw [hchild]
                    simp only [except_bind_ok]
                    rw [hplace]
                    simp [except_bind_error]
                | ok acc2 =>
                  obtain ⟨F2, hF2⟩ := ihe acc2
                  refine ⟨max F1 F2 + 1, ?_⟩
                  simp only [load_defaults, if_neg hself, hparse,
                    except_pure_eq_ok, except_bind_ok, if_neg hex, htp]
                  rw [(comp_mono fs F1).1 (max F1 F2) (le_max_left _ _) _ _
                    (by rw [hchild]; simp), hchild]
                  simp only [except_bind_ok]
                  rw [hplace]
                  simp only [except_bind_ok]
                  rw [(comp_mono fs F2).2 (max F1 F2) (le_max_right _ _) _ _ _ _ hF2]
                  exact hF2
  exact ⟨hA, hB⟩

theorem set_erase_cons_self (R : List String) (k : String) :
    set_erase (k :: R) k = R := by simp [set_erase]

theorem map_find_mem (m : NodeMap) (c : String) (v : Node)
    (h : map_find m c = some v) : (c, v) ∈ m := by
  induction m with
  | nil => simp [map_find] at h
  | cons hd tl ih =>
    obtain ⟨k0, v0⟩ := hd
    by_cases h0 : k0 = c
    · subst h0
      have : v0 = v := by simpa [map_find] using h
      subst this
      exact List.mem_cons_self _ _
    · simp only [map_find, if_neg h0] at h
      exact List.mem_cons_of_mem _ (ih h)

theorem node_paths_nil_mem (root : Node) : [] ∈ node_paths root := by
  cases root <;> simp [node_paths]

theorem go_map_mem (m : NodeMap) (c : String) (v : Node) (p : List String)
    (hm : (c, v) ∈ m) (hp : p ∈ node_paths v) :
    (c :: p) ∈ node_paths.go_map m := by
  induction m with
  | nil => simp at hm
  | cons hd tl ih =>
    obtain ⟨k0, v0⟩ := hd
    rcases List.mem_cons.mp hm with h1 | h1
    · obtain ⟨hk, hv⟩ := Prod.mk.injEq .. ▸ h1
      subst hk
      subst hv
      exact List.mem_append_left _ (List.mem_map.mpr ⟨p, hp, rfl⟩)
    · exact List.mem_append_right _ (ih h1)

theorem seq_get_spec (xs : List Node) (k : Nat) (c : String) (child : Node)
    (h : seq_get xs k c = some child) :
    ∃ i, xs.get? i = some child ∧ c = toString (k + i) := by
  induction xs generalizing k with
  | nil => simp [seq_get] at h
  | cons x rest ih =>
    by_cases h0 : toString k = c
    · have : x = child := by simpa [seq_get, h0] using h
      subst this
      exact ⟨0, rfl, h0.symm⟩
    · simp only [seq_get, if_neg h0] at h
      obtain ⟨i, h1, h2⟩ := ih (k + 1) h
      refine ⟨i + 1, by simpa using h1, ?_⟩
      rw [h2]
      congr 1
      omega

theorem go_seq_mem (xs : List Node) (k i : Nat) (child : Node) (p : List String)
    (hget : xs.get? i = some child) (hp : p ∈ node_paths child) :
    (toString (k + i) :: p) ∈ node_paths.go_seq xs k := by
  induction xs generalizing k i with
  | nil => simp at hget
  | cons x rest ih =>
    cases i with
    | zero =>
      have : x = child := by simpa using hget
      subst this
      exact List.mem_append_left _ (List.mem_map.mpr ⟨p, hp, rfl⟩)
    | succ i =>
      have h1 := ih (k + 1) i (by simpa using hget)
      have : k + 1 + i = k + (i + 1) := by omega
      rw [this] at h1
      exact List.mem_append_right _ h1

theorem get_at_some_mem (path : List String) (root node : Node)
    (h : get_at root path = some node) : path ∈ node_paths root := by
  induction path generalizing root with
  | nil => exact node_paths_nil_mem root
  | cons c rest ih =>
    cases root with
    | mapping m =>
      cases hf : map_find m c with
      | none => simp [get_at, hf] at h
      | some child =>
        simp only [get_at, hf, Option.bind] at h
        have hmem := ih child h
        simp only [node_paths]
        exact List.mem_cons_of_mem _ (go_map_mem m c child rest
          (map_find_mem m c child hf) hmem)
    | sequence xs =>
      cases hf : seq_get xs 0 c with
      | none => simp [get_at, hf] at h
      | some child =>
        simp only [get_at, hf, Option.bind] at h
        obtain ⟨i, h1, h2⟩ := seq_get_spec xs 0 c child hf
        have hmem := ih child h
        simp only [node_paths]
        refine List.mem_cons_of_mem _ ?_
        rw [h2]
        exact go_seq_mem xs 0 i child rest h1 hmem
    | null => simp [get_at] at h
    | bool b => simp [get_at] at h
    | int i => simp [get_at] at h
    | double d => simp [get_at] at h
    | string str => simp [get_at] at h

theorem go_map_set (m : NodeMap) (c : String) (child child2 : Node)
    (hf : map_find m c = some child)
    (heq : node_paths child2 = node_paths child) :
    node_paths.go_map (map_set m c child2) = node_paths.go_map m := by
  induction m with
  | nil => simp [map_find] at hf
  | cons hd tl ih =>
    obtain ⟨k0, v0⟩ := hd
    by_cases h0 : k0 = c
    · subst h0
      have : v0 = child := by simpa [map_find] using hf
      subst this
      simp [map_set, node_paths.go_map, heq]
    · simp only [map_find, if_neg h0] at hf
      simp [map_set, h0, node_paths.go_map, ih hf]

theorem go_seq_set (xs : List Node) (k : Nat) (c : String) (child child2 : Node)
    (hf : seq_get xs k c = some child)
    (heq : node_paths child2 = node_paths child) :
    node_paths.go_seq (seq_set xs k c child2) k = node_paths.go_seq xs k := by
  induction xs generalizing k with
  | nil => simp [seq_get] at hf
  | cons x rest ih =>
    by_cases h0 : toString k = c
    · have : x = child := by simpa [seq_get, h0] using hf
      subst this
      simp [seq_set, h0, node_paths.go_seq, heq]
    · simp only [seq_get, if_neg h0] at hf
      simp [seq_set, h0, node_paths.go_seq, ih (k + 1) hf]

theorem set_at_string_paths (path : List String) (root : Node) (v res : String)
    (h : get_at root path = some (.string v)) :
    node_paths (set_at root path (.string res)) = node_paths root := by
  induction path generalizing root with
  | nil =>
    have : root = .string v := by simpa [get_at] using h
    subst this
    rfl
  | cons c rest ih =>
    cases root with
    | mapping m =>
      cases hf : map_find m c with
      | none => simp [get_at, hf] at h
      | some child =>
        simp only [get_at, hf, Option.bind] at h
        simp only [set_at, hf, node_paths]
        rw [go_map_set m c child _ hf (ih child h)]
    | sequence xs =>
      cases hf : seq_get xs 0 c with
      | none => simp [get_at, hf] at h
      | some child =>
        simp only [get_at, hf, Option.bind] at h
        simp only [set_at, hf, node_paths]
        rw [go_seq_set xs 0 c child _ hf (ih child h)]
    | null => simp [get_at] at h
    | bool b => simp [get_at] at h
    | int i => simp [get_at] at h
    | double d => simp [get_at] at h
    | string str => simp [get_at] at h

/-- Witness for C8 at a concrete environment and inputs. -/
theorem env_expression_semantics_witness :
    resolve_env_expression ⟨fun _ => "", fun _ => ""⟩ [("HOME", "/root")] 1
      ⟨.null, [], []⟩ [] "HOME" = pure ("/root", ⟨.null, [], []⟩) ∧
    resolve_env_expression ⟨fun _ => "", fun _ => ""⟩ [] 1
      ⟨.null, [], []⟩ [] "MISSING" = pure ("", ⟨.null, [], []⟩) ∧
    resolve_env_expression ⟨fun _ => "", fun _ => ""⟩ [] 3
      ⟨.null, [], []⟩ [] ("MISSING" ++ "," ++ "fb") =
      resolve_string ⟨fun _ => "", fun _ => ""⟩ [] 2 ⟨.null, [], []⟩ [] "fb".data := by
  refine ⟨env_expression_semantics.1 _ _ 0 _ _ "HOME" "/root" (by decide) rfl
      (by decide),
    env_expression_semantics.2.1 _ _ 0 _ _ "MISSING" (by decide) rfl,
    env_expression_semantics.2.2.1 _ _ 2 _ _ "MISSING" "fb" (by decide)
      (by decide) (by decide) (Or.inl rfl)⟩

theorem map_find_skel (m : NodeMap) (c : String) :
    map_find (skeleton.go_map m) c = (map_find m c).map skeleton := by
  induction m with
  | nil => simp [map_find, skeleton.go_map]
  | cons hd tl ih =>
    obtain ⟨k0, v0⟩ := hd
    by_cases h0 : k0 = c
    · simp [skeleton.go_map, map_find, h0]
    · simp [skeleton.go_map, map_find, h0, ih]

theorem seq_get_skel (xs : List Node) (k : Nat) (c : String) :
    seq_get (skeleton.go_seq xs) k c = (seq_get xs k c).map skeleton := by
  induction xs generalizing k with
  | nil => simp [seq_get, skeleton.go_seq]
  | cons x rest ih =>
    by_cases h0 : toString k = c
    · simp [skeleton.go_seq, seq_get, h0]
    · simp [skeleton.go_seq, seq_get, h0, ih]

theorem get_at_skel (path : List String) (root : Node) :
    get_at (skeleton root) path = (get_at root path).map skeleton := by
  induction path generalizing root with
  | nil => simp [get_at]
  | cons c rest ih =>
    cases root with
    | mapping m =>
      simp only [skeleton, get_at, map_find_skel]
      cases hf : map_find m c with
      | none => simp
      | some child => simp [ih child]
    | sequence xs =>
      simp only [skeleton, get_at, seq_get_skel]
      cases hf : seq_get xs 0 c with
      | none => simp
      | some child => simp [ih child]
    | null => simp [skeleton, get_at]
    | bool b => simp [skeleton, get_at]
    | int i => simp [skeleton, get_at]
    | double d => simp [skeleton, get_at]
    | string s => simp [skeleton, get_at]

theorem node_paths_skel : ∀ (n : Node), node_paths (skeleton n) = node_paths n
  | .null => rfl
  | .bool _ => rfl
  | .int _ => rfl
  | .double _ => rfl
  | .string _ => rfl
  | .mapping m => by
    rw [skeleton, node_paths, node_paths, go_map_skel m]
  | .sequence xs => by
    rw [skeleton, node_paths, node_paths, go_seq_skel xs 0]
where
  go_map_skel : ∀ (m : NodeMap),
      node_paths.go_map (skeleton.go_map m) = node_paths.go_map m
    | [] => rfl
    | (k, v) :: rest => by
      rw [skeleton.go_map, node_paths.go_map, node_paths.go_map,
        node_paths_skel v, go_map_skel rest]
  go_seq_skel : ∀ (xs : List Node) (idx : Nat),
      node_paths.go_seq (skeleton.go_seq xs) idx = node_paths.go_seq xs idx
    | [], _ => rfl
    | x :: rest, idx => by
      rw [skeleton.go_seq, node_paths.go_seq, node_paths.go_seq,
        node_paths_skel x, go_seq_skel rest (idx + 1)]

theorem map_set_skel (m : NodeMap) (c : String) (child v2 : Node)
    (hf : map_find m c = some child) (heq : skeleton v2 = skeleton child) :
    skeleton.go_map (map_set m c v2) = skeleton.go_map m := by
  induction m with
  | nil => simp [map_find] at hf
  | cons hd tl ih =>
    obtain ⟨k0, v0⟩ := hd
    by_cases h0 : k0 = c
    · subst h0
      have : v0 = child := by simpa [map_find] using hf
      subst this
      simp [map_set, skeleton.go_map, heq]
    · simp only [map_find, if_neg h0] at hf
      simp [map_set, h0, skeleton.go_map, ih hf]

theorem seq_set_skel (xs : List Node) (k : Nat) (c : String) (child v2 : Node)
    (hf : seq_get xs k c = some child) (heq : skeleton v2 = skeleton child) :
    skeleton.go_seq (seq_set xs k c v2) = skeleton.go_seq xs := by
  induction xs generalizing k with
  | nil => simp [seq_get] at hf
  | cons x rest ih =>
    by_cases h0 : toString k = c
    · have : x = child := by simpa [seq_get, h0] using hf
      subst this
      simp [seq_set, h0, skeleton.go_seq, heq]
    · simp only [seq_get, if_neg h0] at hf
      simp [seq_set, h0, skeleton.go_seq, ih (k + 1) hf]

theorem set_at_skel (path : List String) (root w v2 : Node)
    (hg : get_at root path = some w) (heq : skeleton v2 = skeleton w) :
    skeleton (set_at root path v2) = skeleton root := by
  induction path generalizing root with
  | nil =>
    have : root = w := by simpa [get_at] using hg
    subst this
    simpa [set_at] using heq
  | cons c rest ih =>
    cases root with
    | mapping m =>
      cases hf : map_find m c with
      | none => simp [get_at, hf] at hg
      | some child =>
        simp only [get_at, hf, Option.bind] at hg
        simp only [set_at, hf, skeleton]
        rw [map_set_skel m c child _ hf (ih child hg)]
    | sequence xs =>
      cases hf : seq_get xs 0 c with
      | none => simp [get_at, hf] at hg
      | some child =>
        simp only [get_at, hf, Option.bind] at hg
        simp only [set_at, hf, skeleton]
        rw [seq_set_skel xs 0 c child _ hf (ih child hg)]
    | null => simp [get_at] at hg
    | bool b => simp [get_at] at hg
    | int i => simp [get_at] at hg
    | double d => simp [get_at] at hg
    | string s => simp [get_at] at hg

theorem r_avail_congr (s s2 : RState) (hres : s2.resolving = s.resolving)
    (hsk : skeleton s2.root = skeleton s.root) : r_avail s2 = r_avail s := by
  unfold r_avail
  rw [hres, ← node_paths_skel s2.root, hsk, node_paths_skel]

theorem dropWhile_length_le (p : Char → Bool) (l : List Char) :
    (l.dropWhile p).length ≤ l.length := by
  induction l with
  | nil => simp
  | cons x xs ih =>
    by_cases h : p x
    · simp only [List.dropWhile_cons, h, if_pos]
      simp only [List.length_cons]
      omega
    · simp [List.dropWhile_cons, h]

theorem trim_copy_len (cs : List Char) :
    (trim_copy (String.mk cs)).data.length ≤ cs.length := by
  unfold trim_copy
  calc ((((String.mk cs).data.dropWhile is_cspace).reverse.dropWhile
            is_cspace).reverse).length
      = (((String.mk cs).data.dropWhile is_cspace).reverse.dropWhile
            is_cspace).length := by rw [List.length_reverse]
    _ ≤ ((String.mk cs).data.dropWhile is_cspace).reverse.length :=
        dropWhile_length_le _ _
    _ = ((String.mk cs).data.dropWhile is_cspace).length := by
        rw [List.length_reverse]
    _ ≤ cs.length := dropWhile_length_le _ _

theorem starts_with_length : ∀ (cs ps : List Char),
    starts_with cs ps = true → ps.length ≤ cs.length
  | _, [], _ => by simp
  | [], _ :: _, h => by simp [starts_with] at h
  | c :: rest, p :: ps, h => by
    simp only [starts_with, Bool.and_eq_true] at h
    have := starts_with_length rest ps h.2
    simp only [List.length_cons]
    omega

theorem find_dollar_brace_spec : ∀ (chars pre after : List Char),
    find_dollar_brace chars = some (pre, after) →
    chars = pre ++ '$' :: '\x7b' :: after := by
  intro chars
  induction chars using find_dollar_brace.induct with
  | case1 => intro pre after h; simp [find_dollar_brace] at h
  | case2 rest =>
    intro pre after h
    simp only [find_dollar_brace, Option.some.injEq, Prod.mk.injEq] at h
    obtain ⟨h1, h2⟩ := h
    subst h1
    subst h2
    rfl
  | case3 c rest h1 ih =>
    intro pre after h
    rw [find_dollar_brace.eq_def] at h
    split at h
    · simp at h
    · rename_i rest2 heq
      injection heq with hc hr
      exact absurd trivial (fun _ => h1 rest2 hc hr)
    · rename_i x c2 rest2 hx heq
      injection heq with hc hr
      subst hc
      subst hr
      cases hfd : find_dollar_brace rest with
      | none => rw [hfd] at h; simp at h
      | some pair =>
        obtain ⟨p1, p2⟩ := pair
        rw [hfd] at h
        simp only [Option.map, Option.some.injEq, Prod.mk.injEq] at h
        obtain ⟨he1, he2⟩ := h
        subst he1
        subst he2
        rw [ih p1 p2 hfd]
        rfl

theorem find_close_brace_spec : ∀ (chars pre after : List Char),
    find_close_brace chars = some (pre, after) →
    chars = pre ++ '\x7d' :: after := by
  intro chars
  induction chars using find_close_brace.induct with
  | case1 => intro pre after h; simp [find_close_brace] at h
  | case2 rest =>
    intro pre after h
    simp only [find_close_brace, Option.some.injEq, Prod.mk.injEq] at h
    obtain ⟨h1, h2⟩ := h
    subst h1
    subst h2
    rfl
  | case3 c rest h1 ih =>
    intro pre after h
    rw [find_close_brace.eq_def] at h
    split at h
    · simp at h
    · rename_i rest2 heq
      injection heq with hc hr
      exact (h1 hc).elim
    · rename_i x c2 rest2 hx heq
      injection heq with hc hr
      subst hc
      subst hr
      cases hfd : find_close_brace rest with
      | none => rw [hfd] at h; simp at h
      | some pair =>
        obtain ⟨p1, p2⟩ := pair
        rw [hfd] at h
        simp only [Option.map, Option.some.injEq, Prod.mk.injEq] at h
        obtain ⟨he1, he2⟩ := h
        subst he1
        subst he2
        rw [ih p1 p2 hfd]
        rfl

theorem split_first_comma_some_len : ∀ (cs v fb : List Char),
    split_first_comma cs = (v, some fb) → fb.length < cs.length := by
  intro cs
  induction cs using split_first_comma.induct with
  | case1 => intro v fb h; simp [split_first_comma] at h
  | case2 rest =>
    intro v fb h
    simp only [split_first_comma, Prod.mk.injEq, Option.some.injEq] at h
    obtain ⟨h1, h2⟩ := h
    subst h2
    simp
  | case3 c rest h1 ih =>
    intro v fb h
    rw [split_first_comma.eq_def] at h
    split at h
    · simp at h
    · rename_i rest2 heq
      injection heq with hc hr
      exact (h1 hc).elim
    · rename_i x c2 rest2 hx heq
      injection heq with hc hr
      subst hc
      subst hr
      simp only [Prod.mk.injEq] at h
      obtain ⟨he1, he2⟩ := h
      cases hsp : split_first_comma rest with
      | mk v2 o2 =>
        rw [hsp] at he2
        cases o2 with
        | none => simp at he2
        | some fb2 =>
          have : fb = fb2 := by simpa using he2.symm
          subst this
          have := ih v2 fb (by rw [hsp])
          simp only [List.length_cons]
          omega

/-- On success every resolver function restores the `resolving` set it
was entered with and preserves the shape of the tree (string leaves are
the only nodes it rewrites). -/
theorem interp_preserve (ext : Extern) (env : Env) : ∀ (fuel : Nat),
    (∀ (s : RState) (path : List String) (s2 : RState),
      resolve_node ext env fuel s path = .ok s2 →
      s2.resolving = s.resolving ∧ skeleton s2.root = skeleton s.root) ∧
    (∀ (s : RState) (path ks : List String) (s2 : RState),
      resolve_children ext env fuel s path ks = .ok s2 →
      s2.resolving = s.resolving ∧ skeleton s2.root = skeleton s.root) ∧
    (∀ (s : RState) (path : List String) (idx r : Nat) (s2 : RState),
      resolve_seq_children ext env fuel s path idx r = .ok s2 →
      s2.resolving = s.resolving ∧ skeleton s2.root = skeleton s.root) ∧
    (∀ (s : RState) (path : List String) (chars : List Char)
      (out : String × RState),
      resolve_string ext env fuel s path chars = .ok out →
      out.2.resolving = s.resolving ∧ skeleton out.2.root = skeleton s.root) ∧
    (∀ (s : RState) (path : List String) (e : String) (out : String × RState),
      resolve_expression ext env fuel s path e = .ok out →
      out.2.resolving = s.resolving ∧ skeleton out.2.root = skeleton s.root) ∧
    (∀ (s : RState) (path : List String) (b : String) (out : String × RState),
      resolve_env_expression ext env fuel s path b = .ok out →
      out.2.resolving = s.resolving ∧ skeleton out.2.root = skeleton s.root) := by
  intro fuel
  induction fuel with
  | zero =>
    refine ⟨fun s path s2 h => ?_, fun s path ks s2 h => ?_,
      fun s path idx r s2 h => ?_, fun s path chars out h => ?_,
      fun s path e out h => ?_, fun s path b out h => ?_⟩ <;>
      simp [resolve_node, resolve_children, resolve_seq_children,
        resolve_string, resolve_expression, resolve_env_expression] at h
  | succ fuel ih =>
    obtain ⟨ihA, ihB, ihC, ihS, ihE, ihV⟩ := ih
    refine ⟨?_, ?_, ?_, ?_, ?_, ?_⟩
    · intro s path s2 h
      simp only [resolve_node] at h
      by_cases h1 : join_path path ∈ s.resolved
      · simp only [if_pos h1, except_pure_eq_ok, Except.ok.injEq] at h
        subst h
        exact ⟨rfl, rfl⟩
      · simp only [if_neg h1] at h
        by_cases h2 : join_path path ∈ s.resolving
        · simp only [if_pos h2] at h
          simp at h
        · simp only [if_neg h2] at h
          cases hg : get_at s.root path with
          | none =>
            simp only [hg, except_bind_ok, except_pure_eq_ok,
              Except.ok.injEq] at h
            subst h
            exact ⟨set_erase_cons_self _ _, rfl⟩
          | some node =>
            cases node with
            | mapping m =>
              simp only [hg] at h
              cases hc : resolve_children ext env fuel
                  ⟨s.root, join_path path :: s.resolving, s.resolved⟩
                  path (m.map Prod.fst) with
              | error e =>
                rw [hc] at h
                simp [except_bind_error] at h
              | ok sc =>
                rw [hc] at h
                simp only [except_bind_ok, except_pure_eq_ok,
                  Except.ok.injEq] at h
                subst h
                obtain ⟨hr1, hr2⟩ := ihB _ _ _ _ hc
                refine ⟨?_, hr2⟩
                show set_erase sc.resolving (join_path path) = s.resolving
                rw [hr1]
                exact set_erase_cons_self _ _
            | sequence xs =>
              simp only [hg] at h
              cases hc : resolve_seq_children ext env fuel
                  ⟨s.root, join_path path :: s.resolving, s.resolved⟩
                  path 0 xs.length with
              | error e =>
                rw [hc] at h
                simp [except_bind_error] at h
              | ok sc =>
                rw [hc] at h
                simp only [except_bind_ok, except_pure_eq_ok,
                  Except.ok.injEq] at h
                subst h
                obtain ⟨hr1, hr2⟩ := ihC _ _ _ _ _ hc
                refine ⟨?_, hr2⟩
                show set_erase sc.resolving (join_path path) = s.resolving
                rw [hr1]
                exact set_erase_cons_self _ _
            | string v =>
              simp only [hg] at h
              cases hs : resolve_string ext env fuel
                  ⟨s.root, join_path path :: s.resolving, s.resolved⟩
                  path v.data with
              | error e =>
                rw [hs] at h
                simp [except_bind_error] at h
              | ok pair =>
                rw [hs] at h
                simp only [except_bind_ok, except_pure_eq_ok,
                  Except.ok.injEq] at h
                subst h
                obtain ⟨hr1, hr2⟩ := ihS _ _ _ _ hs
                have hsk : skeleton pair.2.root = skeleton s.root := hr2
                have hmap : (get_at pair.2.root path).map skeleton =
                    (get_at s.root path).map skeleton := by
                  rw [← get_at_skel, ← get_at_skel, hsk]
                rw [hg] at hmap
                cases hga : get_at pair.2.root path with
                | none =>
                  rw [hga] at hmap
                  simp at hmap
                | some w =>
                  rw [hga] at hmap
                  simp only [Option.map, Option.some.injEq] at hmap
                  refine ⟨?_, ?_⟩
                  · show set_erase pair.2.resolving (join_path path) =
                      s.resolving
                    rw [hr1]
                    exact set_erase_cons_self _ _
                  · show skeleton (set_at pair.2.root path
                        (.string pair.1)) = skeleton s.root
                    rw [set_at_skel path pair.2.root w (.string pair.1) hga
                      (by rw [hmap]; rfl)]
                    exact hsk
            | null =>
              simp only [hg, except_bind_ok, except_pure_eq_ok,
                Except.ok.injEq] at h
              subst h
              exact ⟨set_erase_cons_self _ _, rfl⟩
            | bool bv =>
              simp only [hg, except_bind_ok, except_pure_eq_ok,
                Except.ok.injEq] at h
              subst h
              exact ⟨set_erase_cons_self _ _, rfl⟩
            | int iv =>
              simp only [hg, except_bind_ok, except_pure_eq_ok,
                Except.ok.injEq] at h
              subst h
              exact ⟨set_erase_cons_self _ _, rfl⟩
            | double dv =>
              simp only [hg, except_bind_ok, except_pure_eq_ok,
                Except.ok.injEq] at h
              subst h
              exact ⟨set_erase_cons_self _ _, rfl⟩
    · intro s path ks s2 h
      cases ks with
      | nil =>
        simp only [resolve_children, except_pure_eq_ok, Except.ok.injEq] at h
        subst h
        exact ⟨rfl, rfl⟩
      | cons k ks =>
        simp only [resolve_children] at h
        cases hn : resolve_node ext env fuel s (path ++ [k]) with
        | error e =>
          rw [hn] at h
          simp [except_bind_error] at h
        | ok sa =>
          rw [hn] at h
          simp only [except_bind_ok] at h
          obtain ⟨ha1, ha2⟩ := ihA _ _ _ hn
          obtain ⟨hb1, hb2⟩ := ihB _ _ _ _ h
          exact ⟨hb1.trans ha1, hb2.trans ha2⟩
    · intro s path idx r s2 h
      cases r with
      | zero =>
        simp only [resolve_seq_children, except_pure_eq_ok,
          Except.ok.injEq] at h
        subst h
        exact ⟨rfl, rfl⟩
      | succ r =>
        simp only [resolve_seq_children] at h
        cases hn : resolve_node ext env fuel s (path ++ [toString idx]) with
        | error e =>
          rw [hn] at h
          simp [except_bind_error] at h
        | ok sa =>
          rw [hn] at h
          simp only [except_bind_ok] at h
          obtain ⟨ha1, ha2⟩ := ihA _ _ _ hn
          obtain ⟨hb1, hb2⟩ := ihC _ _ _ _ _ h
          exact ⟨hb1.trans ha1, hb2.trans ha2⟩
    · intro s path chars out h
      simp only [resolve_string] at h
      cases hfd : find_dollar_brace chars with
      | none =>
        simp only [hfd, except_pure_eq_ok, Except.ok.injEq] at h
        subst h
        exact ⟨rfl, rfl⟩
      | some pq =>
        obtain ⟨pre, after⟩ := pq
        simp only [hfd] at h
        cases hfc : find_close_brace after with
        | none =>
          simp only [hfc] at h
          simp at h
        | some er =>
          obtain ⟨expr, rest⟩ := er
          simp only [hfc] at h
          cases he : resolve_expression ext env fuel s path
              (String.mk expr) with
          | error e =>
            rw [he] at h
            simp [except_bind_error] at h
          | ok pair =>
            rw [he] at h
            simp only [except_bind_ok] at h
            cases ht : resolve_string ext env fuel pair.2 path rest with
            | error e =>
              rw [ht] at h
              simp [except_bind_error] at h
            | ok tail =>
              rw [ht] at h
              simp only [except_bind_ok, except_pure_eq_ok,
                Except.ok.injEq] at h
              subst h
              obtain ⟨he1, he2⟩ := ihE _ _ _ _ he
              obtain ⟨ht1, ht2⟩ := ihS _ _ _ _ ht
              exact ⟨ht1.trans he1, ht2.trans he2⟩
    · intro s path e out h
      simp only [resolve_expression] at h
      by_cases hn : starts_with e.data "now:".data = true
      · simp only [if_pos hn, except_pure_eq_ok, Except.ok.injEq] at h
        subst h
        exact ⟨rfl, rfl⟩
      · simp only [if_neg hn] at h
        by_cases ho : starts_with e.data "oc.env:".data = true
        · simp only [if_pos ho] at h
          exact ihV _ _ _ _ h
        · simp only [if_neg ho] at h
          cases hsp : split_path_expression e with
          | error msg =>
            simp only [hsp, except_bind_error] at h
            simp at h
          | ok p =>
            simp only [hsp, except_pure_eq_ok, except_bind_ok] at h
            cases hfp : find_path s.root p with
            | none =>
              simp only [hfp] at h
              simp at h
            | some tgt =>
              simp only [hfp] at h
              cases hrn : resolve_node ext env fuel s p with
              | error e2 =>
                rw [hrn] at h
                simp [except_bind_error] at h
              | ok sr =>
                rw [hrn] at h
                simp only [except_bind_ok] at h
                obtain ⟨h1, h2⟩ := ihA _ _ _ hrn
                cases hfp2 : find_path sr.root p with
                | none =>
                  simp only [hfp2] at h
                  simp at h
                | some target =>
                  simp only [hfp2] at h
                  cases hns : node_to_string ext target with
                  | error e3 =>
                    simp only [hns] at h
                    simp at h
                  | ok text =>
                    simp only [hns, except_pure_eq_ok, Except.ok.injEq] at h
                    subst h
                    exact ⟨h1, h2⟩
    · intro s path b out h
      simp only [resolve_env_expression] at h
      cases hsp : split_first_comma b.data with
      | mk varcs fbo =>
        simp only [hsp] at h
        cases fbo with
        | none =>
          simp only at h
          cases hef : env_find env (trim_copy (String.mk varcs)) with
          | none =>
            simp only [hef] at h
            rw [if_pos (by trivial)] at h
            simp only [except_pure_eq_ok, Except.ok.injEq] at h
            subst h
            exact ⟨rfl, rfl⟩
          | some value =>
            simp only [hef] at h
            by_cases hv : value = ""
            · simp only [if_neg (by simp [hv] : ¬value ≠ "")] at h
              rw [if_pos (by trivial)] at h
              simp only [except_pure_eq_ok, Except.ok.injEq] at h
              subst h
              exact ⟨rfl, rfl⟩
            · simp only [if_pos hv, except_pure_eq_ok, Except.ok.injEq] at h
              subst h
              exact ⟨rfl, rfl⟩
        | some fbcs =>
          simp only at h
          cases hef : env_find env (trim_copy (String.mk varcs)) with
          | none =>
            simp only [hef] at h
            by_cases hfb : trim_copy (String.mk fbcs) = ""
            · simp only [if_pos hfb, except_pure_eq_ok, Except.ok.injEq] at h
              subst h
              exact ⟨rfl, rfl⟩
            · simp only [if_neg hfb] at h
              exact ihS _ _ _ _ h
          | some value =>
            simp only [hef] at h
            by_cases hv : value = ""
            · simp only [if_neg (by simp [hv] : ¬value ≠ "")] at h
              by_cases hfb : trim_copy (String.mk fbcs) = ""
              · simp only [if_pos hfb, except_pure_eq_ok,
                  Except.ok.injEq] at h
                subst h
                exact ⟨rfl, rfl⟩
              · simp only [if_neg hfb] at h
                exact ihS _ _ _ _ h
            · simp only [if_pos hv, except_pure_eq_ok, Except.ok.injEq] at h
              subst h
              exact ⟨rfl, rfl⟩

/-- Fuel monotonicity of the resolver: once the budget is sufficient
(no `.fuel` result), more budget does not change the result. -/
theorem interp_mono (ext : Extern) (env : Env) : ∀ (fuel : Nat),
    (∀ (fuel2 : Nat), fuel ≤ fuel2 → ∀ (s : RState) (path : List String),
      resolve_node ext env fuel s path ≠ .error .fuel →
      resolve_node ext env fuel2 s path = resolve_node ext env fuel s path) ∧
    (∀ (fuel2 : Nat), fuel ≤ fuel2 → ∀ (s : RState) (path ks : List String),
      resolve_children ext env fuel s path ks ≠ .error .fuel →
      resolve_children ext env fuel2 s path ks =
        resolve_children ext env fuel s path ks) ∧
    (∀ (fuel2 : Nat), fuel ≤ fuel2 → ∀ (s : RState) (path : List String)
      (idx r : Nat),
      resolve_seq_children ext env fuel s path idx r ≠ .error .fuel →
      resolve_seq_children ext env fuel2 s path idx r =
        resolve_seq_children ext env fuel s path idx r) ∧
    (∀ (fuel2 : Nat), fuel ≤ fuel2 → ∀ (s : RState) (path : List String)
      (chars : List Char),
      resolve_string ext env fuel s path chars ≠ .error .fuel →
      resolve_string ext env fuel2 s path chars =
        resolve_string ext env fuel s path chars) ∧
    (∀ (fuel2 : Nat), fuel ≤ fuel2 → ∀ (s : RState) (path : List String)
      (e : String),
      resolve_expression ext env fuel s path e ≠ .error .fuel →
      resolve_expression ext env fuel2 s path e =
        resolve_expression ext env fuel s path e) ∧
    (∀ (fuel2 : Nat), fuel ≤ fuel2 → ∀ (s : RState) (path : List String)
      (b : String),
      resolve_env_expression ext env fuel s path b ≠ .error .fuel →
      resolve_env_expression ext env fuel2 s path b =
        resolve_env_expression ext env fuel s path b) := by
  intro fuel
  induction fuel with
  | zero =>
    refine ⟨fun f2 hle s path hne => ?_, fun f2 hle s path ks hne => ?_,
      fun f2 hle s path idx r hne => ?_, fun f2 hle s path chars hne => ?_,
      fun f2 hle s path e hne => ?_, fun f2 hle s path b hne => ?_⟩ <;>
      exact absurd (by simp [resolve_node, resolve_children,
        resolve_seq_children, resolve_string, resolve_expression,
        resolve_env_expression]) hne
  | succ fuel ih =>
    obtain ⟨mA, mB, mC, mS, mE, mV⟩ := ih
    refine ⟨?_, ?_, ?_, ?_, ?_, ?_⟩
    · intro fuel2 hle s path hne
      obtain ⟨f2, rfl⟩ : ∃ f2, fuel2 = f2 + 1 := ⟨fuel2 - 1, by omega⟩
      have hle2 : fuel ≤ f2 := by omega
      simp only [resolve_node] at hne ⊢
      by_cases h1 : join_path path ∈ s.resolved
      · simp [if_pos h1]
      · simp only [if_neg h1] at hne ⊢
        by_cases h2 : join_path path ∈ s.resolving
        · simp [if_pos h2]
        · simp only [if_neg h2] at hne ⊢
          cases hg : get_at s.root path with
          | none => simp [hg]
          | some node =>
            cases node with
            | mapping m =>
              simp only [hg] at hne ⊢
              cases hc : resolve_children ext env fuel
                  ⟨s.root, join_path path :: s.resolving, s.resolved⟩
                  path (m.map Prod.fst) with
              | error e =>
                cases e with
                | fuel =>
                  rw [hc] at hne
                  simp [except_bind_error] at hne
                | err msg =>
                  have heq := mB f2 hle2 _ _ _ (by rw [hc]; simp)
                  rw [heq, hc]
              | ok sc =>
                have heq := mB f2 hle2 _ _ _ (by rw [hc]; simp)
                rw [heq, hc]
            | sequence xs =>
              simp only [hg] at hne ⊢
              cases hc : resolve_seq_children ext env fuel
                  ⟨s.root, join_path path :: s.resolving, s.resolved⟩
                  path 0 xs.length with
              | error e =>
                cases e with
                | fuel =>
                  rw [hc] at hne
                  simp [except_bind_error] at hne
                | err msg =>
                  have heq := mC f2 hle2 _ _ _ _ (by rw [hc]; simp)
                  rw [heq, hc]
              | ok sc =>
                have heq := mC f2 hle2 _ _ _ _ (by rw [hc]; simp)
                rw [heq, hc]
            | string v =>
              simp only [hg] at hne ⊢
              cases hs : resolve_string ext env fuel
                  ⟨s.root, join_path path :: s.resolving, s.resolved⟩
                  path v.data with
              | error e =>
                cases e with
                | fuel =>
                  rw [hs] at hne
                  simp [except_bind_error] at hne
                | err msg =>
                  have heq := mS f2 hle2 _ _ _ (by rw [hs]; simp)
                  rw [heq, hs]
              | ok pair =>
                have heq := mS f2 hle2 _ _ _ (by rw [hs]; simp)
                rw [heq, hs]
            | null => simp [hg]
            | bool bv => simp [hg]
            | int iv => simp [hg]
            | double dv => simp [hg]
    · intro fuel2 hle s path ks hne
      obtain ⟨f2, rfl⟩ : ∃ f2, fuel2 = f2 + 1 := ⟨fuel2 - 1, by omega⟩
      have hle2 : fuel ≤ f2 := by omega
      cases ks with
      | nil => simp [resolve_children]
      | cons k ks =>
        simp only [resolve_children] at hne ⊢
        cases hn : resolve_node ext env fuel s (path ++ [k]) with
        | error e =>
          cases e with
          | fuel =>
            rw [hn] at hne
            simp [except_bind_error] at hne
          | err msg =>
            have heq := mA f2 hle2 _ _ (by rw [hn]; simp)
            rw [heq, hn]
            simp [except_bind_error]
        | ok sa =>
          have heq := mA f2 hle2 _ _ (by rw [hn]; simp)
          rw [hn] at hne
          rw [heq, hn]
          simp only [except_bind_ok] at hne ⊢
          exact mB f2 hle2 _ _ _ hne
    · intro fuel2 hle s path idx r hne
      obtain ⟨f2, rfl⟩ : ∃ f2, fuel2 = f2 + 1 := ⟨fuel2 - 1, by omega⟩
      have hle2 : fuel ≤ f2 := by omega
      cases r with
      | zero => simp [resolve_seq_children]
      | succ r =>
        simp only [resolve_seq_children] at hne ⊢
        cases hn : resolve_node ext env fuel s (path ++ [toString idx]) with
        | error e =>
          cases e with
          | fuel =>
            rw [hn] at hne
            simp [except_bind_error] at hne
          | err msg =>
            have heq := mA f2 hle2 _ _ (by rw [hn]; simp)
            rw [heq, hn]
            simp [except_bind_error]
        | ok sa =>
          have heq := mA f2 hle2 _ _ (by rw [hn]; simp)
          rw [hn] at hne
          rw [heq, hn]
          simp only [except_bind_ok] at hne ⊢
          exact mC f2 hle2 _ _ _ _ hne
    · intro fuel2 hle s path chars hne
      obtain ⟨f2, rfl⟩ : ∃ f2, fuel2 = f2 + 1 := ⟨fuel2 - 1, by omega⟩
      have hle2 : fuel ≤ f2 := by omega
      simp only [resolve_string] at hne ⊢
      cases hfd : find_dollar_brace chars with
      | none => simp [hfd]
      | some pq =>
        obtain ⟨pre, after⟩ := pq
        simp only [hfd] at hne ⊢
        cases hfc : find_close_brace after with
        | none => simp [hfc]
        | some er =>
          obtain ⟨expr, rest⟩ := er
          simp only [hfc] at hne ⊢
          cases he : resolve_expression ext env fuel s path
              (String.mk expr) with
          | error e =>
            cases e with
            | fuel =>
              rw [he] at hne
              simp [except_bind_error] at hne
            | err msg =>
              have heq := mE f2 hle2 _ _ _ (by rw [he]; simp)
              rw [heq, he]
              simp [except_bind_error]
          | ok pair =>
            have heq := mE f2 hle2 _ _ _ (by rw [he]; simp)
            rw [he] at hne
            rw [heq, he]
            simp only [except_bind_ok] at hne ⊢
            cases ht : resolve_string ext env fuel pair.2 path rest with
            | error e =>
              cases e with
              | fuel =>
                rw [ht] at hne
                simp [except_bind_error] at hne
              | err msg =>
                have heq2 := mS f2 hle2 _ _ _ (by rw [ht]; simp)
                rw [heq2, ht]
            | ok tail =>
              have heq2 := mS f2 hle2 _ _ _ (by rw [ht]; simp)
              rw [heq2, ht]
    · intro fuel2 hle s path e hne
      obtain ⟨f2, rfl⟩ : ∃ f2, fuel2 = f2 + 1 := ⟨fuel2 - 1, by omega⟩
      have hle2 : fuel ≤ f2 := by omega
      simp only [resolve_expression] at hne ⊢
      by_cases hn : starts_with e.data "now:".data = true
      · simp [if_pos hn]
      · simp only [if_neg hn] at hne ⊢
        by_cases ho : starts_with e.data "oc.env:".data = true
        · simp only [if_pos ho] at hne ⊢
          exact mV f2 hle2 _ _ _ hne
        · simp only [if_neg ho] at hne ⊢
          cases hsp : split_path_expression e with
          | error msg => simp [hsp, except_bind_error]
          | ok p =>
            simp only [hsp, except_pure_eq_ok, except_bind_ok] at hne ⊢
            cases hfp : find_path s.root p with
            | none => simp [hfp]
            | some tgt =>
              simp only [hfp] at hne ⊢
              cases hrn : resolve_node ext env fuel s p with
              | error e2 =>
                cases e2 with
                | fuel =>
                  rw [hrn] at hne
                  simp [except_bind_error] at hne
                | err msg =>
                  have heq := mA f2 hle2 _ _ (by rw [hrn]; simp)
                  rw [heq, hrn]
              | ok sr =>
                have heq := mA f2 hle2 _ _ (by rw [hrn]; simp)
                rw [heq, hrn]
    · intro fuel2 hle s path b hne
      obtain ⟨f2, rfl⟩ : ∃ f2, fuel2 = f2 + 1 := ⟨fuel2 - 1, by omega⟩
      have hle2 : fuel ≤ f2 := by omega
      simp only [resolve_env_expression] at hne ⊢
      cases hsp : split_first_comma b.data with
      | mk varcs fbo =>
        simp only [hsp] at hne ⊢
        cases fbo with
        | none =>
          simp only at hne ⊢
          cases hef : env_find env (trim_copy (String.mk varcs)) with
          | none => simp [hef]
          | some value =>
            by_cases hv : value = ""
            · simp [hef, hv]
            · simp [hef, if_pos hv]
        | some fbcs =>
          simp only at hne ⊢
          cases hef : env_find env (trim_copy (String.mk varcs)) with
          | none =>
            simp only [hef] at hne ⊢
            by_cases hfb : trim_copy (String.mk fbcs) = ""
            · simp [if_pos hfb]
            · simp only [if_neg hfb] at hne ⊢
              exact mS f2 hle2 _ _ _ hne
          | some value =>
            simp only [hef] at hne ⊢
            by_cases hv : value = ""
            · simp only [if_neg (by simp [hv] : ¬value ≠ "")] at hne ⊢
              by_cases hfb : trim_copy (String.mk fbcs) = ""
              · simp [if_pos hfb]
              · simp only [if_neg hfb] at hne ⊢
                exact mS f2 hle2 _ _ _ hne
            · simp [if_pos hv]

/-- Termination of the resolver: on every input some finite recursion
budget suffices, because every cross-node descent pushes a fresh
canonical key onto `resolving` (shrinking the still-available key
universe) and every string-level recursion strictly shortens the text
being scanned. -/
theorem interp_terminates (ext : Extern) (env : Env) : ∀ (n : Nat)
    (s : RState) (path : List String), r_avail s ≤ n →
    ∃ fuel, resolve_node ext env fuel s path ≠ .error .fuel := by
  intro n
  induction n using Nat.strong_induction_on with
  | _ n ih =>
  intro s path hav
  by_cases h1 : join_path path ∈ s.resolved
  · exact ⟨1, by simp [resolve_node, if_pos h1, except_pure_eq_ok]⟩
  · by_cases h2 : join_path path ∈ s.resolving
    · exact ⟨1, by simp [resolve_node, if_neg h1, if_pos h2]⟩
    · cases hg : get_at s.root path with
      | none =>
        exact ⟨1, by simp [resolve_node, if_neg h1, if_neg h2, hg,
          except_bind_ok, except_pure_eq_ok]⟩
      | some node =>
        have hkey : join_path path ∈ (node_paths s.root).map join_path :=
          List.mem_map.mpr ⟨path, get_at_some_mem path s.root node hg, rfl⟩
        have hlt : r_avail ⟨s.root, join_path path :: s.resolving,
            s.resolved⟩ < r_avail s :=
          filter_push_lt ((node_paths s.root).map join_path) s.resolving
            (join_path path) hkey h2
        have hch : ∀ (ks : List String) (s2 : RState) (path2 : List String),
            r_avail s2 < n →
            ∃ fuel, resolve_children ext env fuel s2 path2 ks ≠
              .error .fuel := by
          intro ks
          induction ks with
          | nil =>
            intro s2 path2 hlt2
            exact ⟨1, by simp [resolve_children, except_pure_eq_ok]⟩
          | cons k ks ihk =>
            intro s2 path2 hlt2
            obtain ⟨f1, hf1⟩ := ih (n - 1) (by omega) s2 (path2 ++ [k])
              (by omega)
            cases hr1 : resolve_node ext env f1 s2 (path2 ++ [k]) with
            | error e =>
              cases e with
              | fuel => exact absurd hr1 hf1
              | err msg =>
                refine ⟨f1 + 1, ?_⟩
                simp only [resolve_children]
                rw [hr1]
                simp [except_bind_error]
            | ok sa =>
              obtain ⟨hp1, hp2⟩ := (interp_preserve ext env f1).1 _ _ _ hr1
              have hra : r_avail sa = r_avail s2 := r_avail_congr _ _ hp1 hp2
              obtain ⟨f2, hf2⟩ := ihk sa path2 (by omega)
              refine ⟨max f1 f2 + 1, ?_⟩
              simp only [resolve_children]
              rw [(interp_mono ext env f1).1 (max f1 f2) (le_max_left _ _) _ _
                (by rw [hr1]; simp), hr1]
              simp only [except_bind_ok]
              rw [(interp_mono ext env f2).2.1 (max f1 f2) (le_max_right _ _)
                _ _ _ hf2]
              exact hf2
        have hsq : ∀ (r idx : Nat) (s2 : RState) (path2 : List String),
            r_avail s2 < n →
            ∃ fuel, resolve_seq_children ext env fuel s2 path2 idx r ≠
              .error .fuel := by
          intro r
          induction r with
          | zero =>
            intro idx s2 path2 hlt2
            exact ⟨1, by simp [resolve_seq_children, except_pure_eq_ok]⟩
          | succ r ihr =>
            intro idx s2 path2 hlt2
            obtain ⟨f1, hf1⟩ := ih (n - 1) (by omega) s2
              (path2 ++ [toString idx]) (by omega)
            cases hr1 : resolve_node ext env f1 s2
                (path2 ++ [toString idx]) with
            | error e =>
              cases e with
              | fuel => exact absurd hr1 hf1
              | err msg =>
                refine ⟨f1 + 1, ?_⟩
                simp only [resolve_seq_children]
                rw [hr1]
                simp [except_bind_error]
            | ok sa =>
              obtain ⟨hp1, hp2⟩ := (interp_preserve ext env f1).1 _ _ _ hr1
              have hra : r_avail sa = r_avail s2 := r_avail_congr _ _ hp1 hp2
              obtain ⟨f2, hf2⟩ := ihr (idx + 1) sa path2 (by omega)
              refine ⟨max f1 f2 + 1, ?_⟩
              simp only [resolve_seq_children]
              rw [(interp_mono ext env f1).1 (max f1 f2) (le_max_left _ _) _ _
                (by rw [hr1]; simp), hr1]
              simp only [except_bind_ok]
              rw [(interp_mono ext env f2).2.2.1 (max f1 f2)
                (le_max_right _ _) _ _ _ _ hf2]
              exact hf2
        have hsev : ∀ (m : Nat),
            (∀ (s2 : RState) (path2 : List String) (chars : List Char),
              r_avail s2 < n → chars.length ≤ m →
              ∃ fuel, resolve_string ext env fuel s2 path2 chars ≠
                .error .fuel) ∧
            (∀ (s2 : RState) (path2 : List String) (e : String),
              r_avail s2 < n → e.data.length ≤ m →
              ∃ fuel, resolve_expression ext env fuel s2 path2 e ≠
                .error .fuel) ∧
            (∀ (s2 : RState) (path2 : List String) (b : String),
              r_avail s2 < n → b.data.length ≤ m →
              ∃ fuel, resolve_env_expression ext env fuel s2 path2 b ≠
                .error .fuel) := by
          intro m
          induction m using Nat.strong_induction_on with
          | _ m ihm =>
          refine ⟨?_, ?_, ?_⟩
          · intro s2 path2 chars hlt2 hlen
            cases hfd : find_dollar_brace chars with
            | none =>
              exact ⟨1, by simp [resolve_string, hfd, except_pure_eq_ok]⟩
            | some pq =>
              obtain ⟨pre, after⟩ := pq
              cases hfc : find_close_brace after with
              | none => exact ⟨1, by simp [resolve_string, hfd, hfc]⟩
              | some er =>
                obtain ⟨expr, rest⟩ := er
                have hlen1 : chars.length = pre.length + 2 + after.length := by
                  rw [find_dollar_brace_spec chars pre after hfd]
                  simp
                  omega
                have hlen2 : after.length = expr.length + 1 + rest.length := by
                  rw [find_close_brace_spec after expr rest hfc]
                  simp
                  omega
                obtain ⟨f1, hf1⟩ := (ihm (m - 1) (by omega)).2.1 s2 path2
                  (String.mk expr) hlt2
                  (by show expr.length ≤ m - 1; omega)
                cases he : resolve_expression ext env f1 s2 path2
                    (String.mk expr) with
                | error e =>
                  cases e with
                  | fuel => exact absurd he hf1
                  | err msg =>
                    refine ⟨f1 + 1, ?_⟩
                    simp only [resolve_string, hfd, hfc]
                    rw [he]
                    simp [except_bind_error]
                | ok pair =>
                  obtain ⟨hp1, hp2⟩ :=
                    (interp_preserve ext env f1).2.2.2.2.1 _ _ _ _ he
                  have hra : r_avail pair.2 = r_avail s2 :=
                    r_avail_congr _ _ hp1 hp2
                  obtain ⟨f2, hf2⟩ := (ihm (m - 1) (by omega)).1 pair.2 path2
                    rest (by omega) (by omega)
                  refine ⟨max f1 f2 + 1, ?_⟩
                  simp only [resolve_string, hfd, hfc]
                  rw [(interp_mono ext env f1).2.2.2.2.1 (max f1 f2)
                    (le_max_left _ _) _ _ _ (by rw [he]; simp), he]
                  simp only [except_bind_ok]
                  rw [(interp_mono ext env f2).2.2.2.1 (max f1 f2)
                    (le_max_right _ _) _ _ _ hf2]
                  cases ht : resolve_string ext env f2 pair.2 path2 rest with
                  | error e =>
                    cases e with
                    | fuel => exact absurd ht hf2
                    | err msg => simp [except_bind_error]
                  | ok tail => simp [except_bind_ok, except_pure_eq_ok]
          · intro s2 path2 e hlt2 hlen
            by_cases hno : starts_with e.data "now:".data = true
            · exact ⟨1, by simp [resolve_expression, if_pos hno,
                except_pure_eq_ok]⟩
            · by_cases ho : starts_with e.data "oc.env:".data = true
              · have hlen7 : 7 ≤ e.data.length := by
                  have h7 := starts_with_length e.data "oc.env:".data ho
                  simpa using h7
                obtain ⟨f1, hf1⟩ := (ihm (m - 1) (by omega)).2.2 s2 path2
                  (String.mk (e.data.drop 7)) hlt2
                  (by show (e.data.drop 7).length ≤ m - 1
                      rw [List.length_drop]
                      omega)
                refine ⟨f1 + 1, ?_⟩
                simp only [resolve_expression, if_neg hno, if_pos ho]
                exact hf1
              · cases hsp : split_path_expression e with
                | error msg =>
                  exact ⟨1, by simp [resolve_expression, if_neg hno,
                    if_neg ho, hsp, except_bind_error]⟩
                | ok p =>
                  cases hfp : find_path s2.root p with
                  | none =>
                    exact ⟨1, by simp [resolve_expression, if_neg hno,
                      if_neg ho, hsp, hfp, except_pure_eq_ok,
                      except_bind_ok]⟩
                  | some tgt =>
                    obtain ⟨f1, hf1⟩ := ih (n - 1) (by omega) s2 p (by omega)
                    refine ⟨f1 + 1, ?_⟩
                    simp only [resolve_expression, if_neg hno, if_neg ho,
                      hsp, except_pure_eq_ok, except_bind_ok, hfp]
                    cases hrn : resolve_node ext env f1 s2 p with
                    | error e2 =>
                      cases e2 with
                      | fuel => exact absurd hrn hf1
                      | err msg => simp [except_bind_error]
                    | ok sr =>
                      simp only [except_bind_ok]
                      cases hfp2 : find_path sr.root p with
                      | none => simp [hfp2]
                      | some target =>
                        simp only [hfp2]
                        cases hns : node_to_string ext target with
                        | error e3 => simp [hns]
                        | ok text => simp [hns, except_pure_eq_ok]
          · intro s2 path2 b hlt2 hlen
            cases hsp : split_first_comma b.data with
            | mk varcs fbo =>
              cases fbo with
              | none =>
                cases hef : env_find env (trim_copy (String.mk varcs)) with
                | none =>
                  exact ⟨1, by simp [resolve_env_expression, hsp, hef,
                    except_pure_eq_ok]⟩
                | some value =>
                  by_cases hv : value = ""
                  · exact ⟨1, by simp [resolve_env_expression, hsp, hef, hv,
                      except_pure_eq_ok]⟩
                  · exact ⟨1, by simp [resolve_env_expression, hsp, hef,
                      if_pos hv, except_pure_eq_ok]⟩
              | some fbcs =>
                cases hef : env_find env (trim_copy (String.mk varcs)) with
                | none =>
                  by_cases hfb : trim_copy (String.mk fbcs) = ""
                  · exact ⟨1, by simp [resolve_env_expression, hsp, hef, hfb,
                      except_pure_eq_ok]⟩
                  · have h3 := split_first_comma_some_len b.data varcs fbcs hsp
                    have h4 := trim_copy_len fbcs
                    obtain ⟨f1, hf1⟩ := (ihm (m - 1) (by omega)).1 s2 path2
                      (trim_copy (String.mk fbcs)).data hlt2 (by omega)
                    refine ⟨f1 + 1, ?_⟩
                    simp only [resolve_env_expression, hsp, hef, if_neg hfb]
                    exact hf1
                | some value =>
                  by_cases hv : value = ""
                  · by_cases hfb : trim_copy (String.mk fbcs) = ""
                    · exact ⟨1, by simp [resolve_env_expression, hsp, hef,
                        hv, hfb, except_pure_eq_ok]⟩
                    · have h3 := split_first_comma_some_len b.data varcs
                        fbcs hsp
                      have h4 := trim_copy_len fbcs
                      obtain ⟨f1, hf1⟩ := (ihm (m - 1) (by omega)).1 s2 path2
                        (trim_copy (String.mk fbcs)).data hlt2 (by omega)
                      refine ⟨f1 + 1, ?_⟩
                      simp only [resolve_env_expression, hsp, hef,
                        if_neg (by simp [hv] : ¬value ≠ ""), if_neg hfb]
                      exact hf1
                  · exact ⟨1, by simp [resolve_env_expression, hsp, hef,
                      if_pos hv, except_pure_eq_ok]⟩
        cases node with
        | mapping m =>
          obtain ⟨f, hf⟩ := hch (m.map Prod.fst)
            ⟨s.root, join_path path :: s.resolving, s.resolved⟩ path
            (by omega)
          refine ⟨f + 1, ?_⟩
          simp only [resolve_node, if_neg h1, if_neg h2, hg]
          cases hc : resolve_children ext env f
              ⟨s.root, join_path path :: s.resolving, s.resolved⟩ path
              (m.map Prod.fst) with
          | error e =>
            cases e with
            | fuel => exact absurd hc hf
            | err msg => simp [except_bind_error]
          | ok sc => simp [except_bind_ok, except_pure_eq_ok]
        | sequence xs =>
          obtain ⟨f, hf⟩ := hsq xs.length 0
            ⟨s.root, join_path path :: s.resolving, s.resolved⟩ path
            (by omega)
          refine ⟨f + 1, ?_⟩
          simp only [resolve_node, if_neg h1, if_neg h2, hg]
          cases hc : resolve_seq_children ext env f
              ⟨s.root, join_path path :: s.resolving, s.resolved⟩ path 0
              xs.length with
          | error e =>
            cases e with
            | fuel => exact absurd hc hf
            | err msg => simp [except_bind_error]
          | ok sc => simp [except_bind_ok, except_pure_eq_ok]
        | string v =>
          obtain ⟨f, hf⟩ := (hsev v.data.length).1
            ⟨s.root, join_path path :: s.resolving, s.resolved⟩ path v.data
            (by omega) (le_refl _)
          refine ⟨f + 1, ?_⟩
          simp only [resolve_node, if_neg h1, if_neg h2, hg]
          cases hs : resolve_string ext env f
              ⟨s.root, join_path path :: s.resolving, s.resolved⟩ path
              v.data with
          | error e =>
            cases e with
            | fuel => exact absurd hs hf
            | err msg => simp [except_bind_error]
          | ok pair => simp [except_bind_ok, except_pure_eq_ok]
        | null =>
          exact ⟨1, by simp [resolve_node, if_neg h1, if_neg h2, hg,
            except_bind_ok, except_pure_eq_ok]⟩
        | bool bv =>
          exact ⟨1, by simp [resolve_node, if_neg h1, if_neg h2, hg,
            except_bind_ok, except_pure_eq_ok]⟩
        | int iv =>
          exact ⟨1, by simp [resolve_node, if_neg h1, if_neg h2, hg,
            except_bind_ok, except_pure_eq_ok]⟩
        | double dv =>
          exact ⟨1, by simp [resolve_node, if_neg h1, if_neg h2, hg,
            except_bind_ok, except_pure_eq_ok]⟩

set_option maxHeartbeats 1600000 in
/-- Claim C6: composition (`load_with_includes`) and interpolation
resolution (`resolve_node`) terminate on every input — a finite
recursion budget of the fuelled embedding always suffices — including
on a cyclic include graph and a cyclic reference chain; each algorithm
checks membership of the current canonical key in its in-progress set
before any recursive descent, failing with a cycle error when the key
is already present, as witnessed concretely by the include cycle
`/cfg/a.yaml ↔ /cfg/b.yaml` and the reference chain
`a: "${b}", b: "${a}"`. -/
theorem termination_and_cycle_guards :
    (∀ (fs : FileSys) (path : String) (stack : List String),
      ∃ fuel, load_with_includes fs fuel path stack ≠ .error .fuel) ∧
    (∀ (ext : Extern) (env : Env) (root : Node),
      ∃ fuel, resolve_interpolations ext env fuel root ≠ .error .fuel) ∧
    (∀ (fs : FileSys) (fuel : Nat) (path : String) (stack : List String),
      normalize_path path ∈ stack →
      load_with_includes fs (fuel + 1) path stack =
        .error (.err ("Detected recursive configuration include involving " ++
          normalize_path path))) ∧
    (∀ (ext : Extern) (env : Env) (fuel : Nat) (s : RState)
      (path : List String),
      join_path path ∉ s.resolved → join_path path ∈ s.resolving →
      resolve_node ext env (fuel + 1) s path =
        .error (.err ("Detected interpolation cycle involving " ++
          join_path path))) ∧
    (∀ (fuel : Nat), 5 ≤ fuel →
      load_with_includes
        [("/cfg/a.yaml", .mapping [("defaults", .sequence [.string "b"])]),
         ("/cfg/b.yaml", .mapping [("defaults", .sequence [.string "a"])])]
        fuel "/cfg/a.yaml" [] =
        .error (.err
          "Detected recursive configuration include involving /cfg/a.yaml")) ∧
    (∀ (ext : Extern) (env : Env) (fuel : Nat), 12 ≤ fuel →
      resolve_interpolations ext env fuel
        (.mapping [("a", .string "$\x7bb\x7d"),
                   ("b", .string "$\x7ba\x7d")]) =
        .error (.err "Detected interpolation cycle involving a")) := by
  refine ⟨?_, ?_, ?_, ?_, ?_, ?_⟩
  · intro fs path stack
    exact (comp_terminates fs (fs_avail fs stack)).1 path stack (le_refl _)
  · intro ext env root
    obtain ⟨fuel, hf⟩ := interp_terminates ext env
      (r_avail ⟨root, [], []⟩) ⟨root, [], []⟩ [] (le_refl _)
    refine ⟨fuel, ?_⟩
    unfold resolve_interpolations
    cases hr : resolve_node ext env fuel ⟨root, [], []⟩ [] with
    | error e =>
      cases e with
      | fuel => exact absurd hr hf
      | err msg => simp [except_mapf_error]
    | ok s2 => simp [except_mapf_ok]
  · intro fs fuel path stack hmem
    simp [load_with_includes, hmem]
  · intro ext env fuel s path h1 h2
    simp [resolve_node, if_neg h1, if_pos h2]
  · intro fuel hle
    have hpa : parse_default_entry (.string "a") "/cfg" =
        .ok ⟨"/cfg/a.yaml", none, false⟩ := rfl
    have hpb : parse_default_entry (.string "b") "/cfg" =
        .ok ⟨"/cfg/b.yaml", none, false⟩ := rfl
    have hparentA : parent_path "/cfg/a.yaml" = "/cfg" := rfl
    have hparentB : parent_path "/cfg/b.yaml" = "/cfg" := rfl
    have e1 : load_with_includes
        [("/cfg/a.yaml", .mapping [("defaults", .sequence [.string "b"])]),
         ("/cfg/b.yaml", .mapping [("defaults", .sequence [.string "a"])])]
        1 "/cfg/a.yaml" ["/cfg/b.yaml", "/cfg/a.yaml"] =
        .error (.err
          "Detected recursive configuration include involving /cfg/a.yaml") := by
      simp [load_with_includes, normalize_path]
    have e2 : load_defaults
        [("/cfg/a.yaml", .mapping [("defaults", .sequence [.string "b"])]),
         ("/cfg/b.yaml", .mapping [("defaults", .sequence [.string "a"])])]
        2 ["/cfg/b.yaml", "/cfg/a.yaml"] "/cfg" [.string "a"]
        (.mapping []) =
        .error (.err
          "Detected recursive configuration include involving /cfg/a.yaml") := by
      simp [load_defaults, is_self_marker, hpa, fs_find, e1,
        except_bind_ok, except_bind_error, except_pure_eq_ok]
    have e3 : load_with_includes
        [("/cfg/a.yaml", .mapping [("defaults", .sequence [.string "b"])]),
         ("/cfg/b.yaml", .mapping [("defaults", .sequence [.string "a"])])]
        3 "/cfg/b.yaml" ["/cfg/a.yaml"] =
        .error (.err
          "Detected recursive configuration include involving /cfg/a.yaml") := by
      simp [load_with_includes, normalize_path, fs_find, map_find,
        hparentB, e2, except_bind_ok, except_bind_error, except_pure_eq_ok]
    have e4 : load_defaults
        [("/cfg/a.yaml", .mapping [("defaults", .sequence [.string "b"])]),
         ("/cfg/b.yaml", .mapping [("defaults", .sequence [.string "a"])])]
        4 ["/cfg/a.yaml"] "/cfg" [.string "b"] (.mapping []) =
        .error (.err
          "Detected recursive configuration include involving /cfg/a.yaml") := by
      simp [load_defaults, is_self_marker, hpb, fs_find, e3,
        except_bind_ok, except_bind_error, except_pure_eq_ok]
    have h5 : load_with_includes
        [("/cfg/a.yaml", .mapping [("defaults", .sequence [.string "b"])]),
         ("/cfg/b.yaml", .mapping [("defaults", .sequence [.string "a"])])]
        5 "/cfg/a.yaml" [] =
        .error (.err
          "Detected recursive configuration include involving /cfg/a.yaml") := by
      simp [load_with_includes, normalize_path, fs_find, map_find,
        hparentA, e4, except_bind_ok, except_bind_error, except_pure_eq_ok]
    rw [(comp_mono _ 5).1 fuel hle _ _ (by rw [h5]; simp)]
    exact h5
  · intro ext env fuel hle
    have hb : resolve_node ext env 7
        ⟨.mapping [("a", .string "$\x7bb\x7d"), ("b", .string "$\x7ba\x7d")],
         ["a", "<root>"], []⟩ ["b"] =
        .error (.err "Detected interpolation cycle involving a") := by
      simp [resolve_node, resolve_children, resolve_seq_children,
        resolve_string, resolve_expression, resolve_env_expression,
        join_path, join_path_chars, starts_with, get_at, set_at, map_find,
        map_set, find_dollar_brace, find_close_brace, split_path_expression,
        split_path_chars, find_path, node_to_string, set_erase, env_find,
        trim_copy, is_cspace, split_first_comma, except_bind_ok,
        except_bind_error, except_map_ok, except_map_error,
        except_pure_eq_ok, except_mapf_ok, except_mapf_error]
    have ha : resolve_node ext env 10
        ⟨.mapping [("a", .string "$\x7bb\x7d"), ("b", .string "$\x7ba\x7d")],
         ["<root>"], []⟩ ["a"] =
        .error (.err "Detected interpolation cycle involving a") := by
      simp [resolve_node, resolve_children, resolve_seq_children,
        resolve_string, resolve_expression, resolve_env_expression,
        join_path, join_path_chars, starts_with, get_at, set_at, map_find,
        map_set, find_dollar_brace, find_close_brace, split_path_expression,
        split_path_chars, find_path, node_to_string, set_erase, env_find,
        trim_copy, is_cspace, split_first_comma, except_bind_ok,
        except_bind_error, except_map_ok, except_map_error,
        except_pure_eq_ok, except_mapf_ok, except_mapf_error, hb]
    have hch : resolve_children ext env 11
        ⟨.mapping [("a", .string "$\x7bb\x7d"), ("b", .string "$\x7ba\x7d")],
         ["<root>"], []⟩ [] ["a", "b"] =
        .error (.err "Detected interpolation cycle involving a") := by
      simp [resolve_children, ha, except_bind_error]
    have h12 : resolve_node ext env 12
        ⟨.mapping [("a", .string "$\x7bb\x7d"), ("b", .string "$\x7ba\x7d")],
         [], []⟩ [] =
        .error (.err "Detected interpolation cycle involving a") := by
      simp [resolve_node, join_path, join_path_chars, get_at, map_find,
        set_erase, hch, except_bind_ok, except_bind_error,
        except_pure_eq_ok]
    unfold resolve_interpolations
    rw [(interp_mono ext env 12).1 fuel hle _ _ (by rw [h12]; simp), h12]
    rfl

/-- Witness for C6: both guards applied at concrete cyclic states, the
concrete two-file include cycle and the concrete two-key reference
cycle. -/
theorem termination_and_cycle_guards_witness :
    load_with_includes [] 1 "/x" ["/x"] =
      .error (.err
        "Detected recursive configuration include involving /x") ∧
    resolve_node ⟨fun _ => "", fun _ => ""⟩ [] 1 ⟨.null, ["k"], []⟩ ["k"] =
      .error (.err "Detected interpolation cycle involving k") ∧
    load_with_includes
      [("/cfg/a.yaml", .mapping [("defaults", .sequence [.string "b"])]),
       ("/cfg/b.yaml", .mapping [("defaults", .sequence [.string "a"])])]
      5 "/cfg/a.yaml" [] =
      .error (.err
        "Detected recursive configuration include involving /cfg/a.yaml") ∧
    resolve_interpolations ⟨fun _ => "", fun _ => ""⟩ [] 12
      (.mapping [("a", .string "$\x7bb\x7d"), ("b", .string "$\x7ba\x7d")]) =
      .error (.err "Detected interpolation cycle involving a") := by
  refine ⟨?_, ?_, ?_, ?_⟩
  · have h := termination_and_cycle_guards.2.2.1 [] 0 "/x" ["/x"]
      (by decide)
    simpa [normalize_path] using h
  · have h := termination_and_cycle_guards.2.2.2.1
      ⟨fun _ => "", fun _ => ""⟩ [] 0 ⟨.null, ["k"], []⟩ ["k"]
      (by decide) (by decide)
    simpa [join_path, join_path_chars] using h
  · exact termination_and_cycle_guards.2.2.2.2.1 5 (by decide)
  · exact termination_and_cycle_guards.2.2.2.2.2
      ⟨fun _ => "", fun _ => ""⟩ [] 12 (by decide)

end Hydra
